import Mathlib

/-!
# Verification of the Huffman coder in `src/Project-C/main.c`

This file gives a shallow embedding of the C program's data model and
operations, and proves (or refutes) the specification's claims about them.

Modelling conventions:
* C strings are `List Char` (the terminating `'\0'` is implicit in the list
  structure); the 256×256 `codes` array is a total map `Char → List Char`
  whose entries default to `[]` (the zero-initialised array of `main`,
  where an empty string means "no code recorded", cf. `printCodes`).
* `struct HuffmanNode*` trees are the inductive `HuffmanNode`;
  `createHuffmanNode` only ever produces nodes with both children `NULL`
  (a leaf) and `buildHuffmanTree` immediately sets both children of every
  internal node, so reachable nodes are exactly leaves and binary nodes.
  The `left`/`right` accessors return `Option` so that a `NULL` child reads
  exactly like the C pointer; a dereference of `NULL` is modelled by an
  `Option.none` result of the operation (`decodeData` returns
  `Option (List Char)` for this reason).
* `malloc` failure paths are not modelled (allocation always succeeds).
-/

namespace HuffmanC

/-- C `isalpha` (from `<ctype.h>`, "C" locale) restricted to the ASCII
arguments this program feeds it: true exactly on `'A'..'Z'` and `'a'..'z'`. -/
def isalpha (c : Char) : Bool :=
  ('A' ≤ c && c ≤ 'Z') || ('a' ≤ c && c ≤ 'z')

/-- `struct HuffmanNode`: `data`, `freq` and the two child pointers.
Only the two reachable shapes exist: both children `NULL` (a leaf, as made
by `createHuffmanNode`) or both children set (as made by the merge step of
`buildHuffmanTree`). -/
inductive HuffmanNode where
  | leaf (data : Char) (freq : Nat)
  | node (data : Char) (freq : Nat) (l r : HuffmanNode)
deriving DecidableEq, Repr

namespace HuffmanNode

/-- `node->data`. -/
def data : HuffmanNode → Char
  | .leaf d _ => d
  | .node d _ _ _ => d

/-- `node->freq`. -/
def freq : HuffmanNode → Nat
  | .leaf _ f => f
  | .node _ f _ _ => f

/-- `node->left` (`none` = `NULL`). -/
def left : HuffmanNode → Option HuffmanNode
  | .leaf _ _ => none
  | .node _ _ l _ => some l

/-- `node->right` (`none` = `NULL`). -/
def right : HuffmanNode → Option HuffmanNode
  | .leaf _ _ => none
  | .node _ _ _ r => some r

@[simp] lemma data_leaf (d : Char) (f : Nat) : (leaf d f).data = d := rfl
@[simp] lemma data_node (d : Char) (f : Nat) (l r : HuffmanNode) :
    (node d f l r).data = d := rfl
@[simp] lemma freq_leaf (d : Char) (f : Nat) : (leaf d f).freq = f := rfl
@[simp] lemma freq_node (d : Char) (f : Nat) (l r : HuffmanNode) :
    (node d f l r).freq = f := rfl
@[simp] lemma left_leaf (d : Char) (f : Nat) : (leaf d f).left = none := rfl
@[simp] lemma left_node (d : Char) (f : Nat) (l r : HuffmanNode) :
    (node d f l r).left = some l := rfl
@[simp] lemma right_leaf (d : Char) (f : Nat) : (leaf d f).right = none := rfl
@[simp] lemma right_node (d : Char) (f : Nat) (l r : HuffmanNode) :
    (node d f l r).right = some r := rfl

end HuffmanNode

/-- `createHuffmanNode`: allocates a node with both children `NULL`. -/
def createHuffmanNode (data : Char) (freq : Nat) : HuffmanNode :=
  HuffmanNode.leaf data freq

/-- `struct SortedArrayPriorityQueue`: the `size` field of the C struct is
`array.length` (C keeps it separately only because C arrays do not know
their own length). -/
structure SortedArrayPriorityQueue where
  capacity : Nat
  array : List HuffmanNode
deriving DecidableEq, Repr

/-- `createSortedArrayPriorityQueue`. -/
def createSortedArrayPriorityQueue (capacity : Nat) : SortedArrayPriorityQueue :=
  { capacity := capacity, array := [] }

/-- The scan-from-the-end loop of `insertSortedArrayPriorityQueue`, acting on
the REVERSED array: C walks `i` down from the last index while
`array[i]->freq > node->freq`, shifting those elements one slot up, and drops
`node` into the hole.  Processing the reversed list, that is: keep passing
elements while their `freq` exceeds `node.freq`, then put `node` down. -/
def insertScan (node : HuffmanNode) : List HuffmanNode → List HuffmanNode
  | [] => [node]
  | x :: xs => if x.freq > node.freq then x :: insertScan node xs else node :: x :: xs

/-- `insertSortedArrayPriorityQueue` without the capacity guard: the effect of
the C insertion on the array contents. -/
def insertArray (node : HuffmanNode) (arr : List HuffmanNode) : List HuffmanNode :=
  (insertScan node arr.reverse).reverse

/-- `insertSortedArrayPriorityQueue`: if the queue is full the function
returns without inserting; otherwise the node is placed by the backwards
scan. -/
def insertSortedArrayPriorityQueue (queue : SortedArrayPriorityQueue)
    (node : HuffmanNode) : SortedArrayPriorityQueue :=
  if queue.array.length = queue.capacity then queue
  else { queue with array := insertArray node queue.array }

/-- `extractMin`: returns `NULL` on an empty queue, else the front element,
shifting the rest down. -/
def extractMin (queue : SortedArrayPriorityQueue) :
    Option HuffmanNode × SortedArrayPriorityQueue :=
  match queue.array with
  | [] => (none, queue)
  | x :: xs => (some x, { queue with array := xs })

@[simp] lemma length_insertScan (node : HuffmanNode) (l : List HuffmanNode) :
    (insertScan node l).length = l.length + 1 := by
  induction l with
  | nil => rfl
  | cons x xs ih => by_cases h : x.freq > node.freq <;> simp [insertScan, h, ih]

@[simp] lemma length_insertArray (node : HuffmanNode) (arr : List HuffmanNode) :
    (insertArray node arr).length = arr.length + 1 := by
  simp [insertArray]

/-- The `while (queue->size > 1)` loop of `buildHuffmanTree` on the array
(`cap` is the queue's fixed capacity): extract the two front nodes (`left`
then `right`), create the internal `'$'` node with the summed frequency and
the first extracted node as left child, insert it back, repeat. -/
def buildLoop (cap : Nat) (q : List HuffmanNode) : List HuffmanNode :=
  match q with
  | a :: b :: rest =>
    buildLoop cap
      (if rest.length = cap then rest
       else insertArray (HuffmanNode.node '$' (a.freq + b.freq) a b) rest)
  | _ => q
termination_by q.length
decreasing_by
  simp only [List.length_cons]
  split
  · omega
  · rw [length_insertArray]; omega

/-- `buildHuffmanTree`: seed the queue with one leaf per `(data[i], freq[i])`
pair (the C loop runs `i = 0 .. size-1`; `size` is the common length of
the parallel arrays, here `data.length`), run the merge loop, and return
the final `extractMin` — which is `NULL` for an empty table. -/
def buildHuffmanTree (data : List Char) (freq : List Nat) : Option HuffmanNode :=
  let seeded := (data.zip freq).foldl
    (fun q e => insertSortedArrayPriorityQueue q (createHuffmanNode e.1 e.2))
    (createSortedArrayPriorityQueue data.length)
  (extractMin { seeded with array := buildLoop seeded.capacity seeded.array }).1

/-- The `codes[256][256]` table: a map from a symbol to its recorded
bit-string; `[]` is a zeroed row, i.e. "no code recorded" (cf. the
`codes[i][0] != '\0'` test in `printCodes`). -/
abbrev CodeTable := Char → List Char

/-- `strcpy(codes[(unsigned char)c], code)`: point update of the table. -/
def CodeTable.update (codes : CodeTable) (c : Char) (v : List Char) : CodeTable :=
  fun x => if x = c then v else codes x

@[simp] lemma CodeTable.update_same (codes : CodeTable) (c : Char) (v : List Char) :
    codes.update c v c = v := by simp [CodeTable.update]

lemma CodeTable.update_other (codes : CodeTable) (c x : Char) (v : List Char)
    (h : x ≠ c) : codes.update c v x = codes x := by simp [CodeTable.update, h]

/-- `storeCodes`: at a node with both children `NULL` whose `data` passes
`isalpha`, copy the accumulated path into the table and return; otherwise
recurse left with `'0'` appended, then right with `'1'` appended (the C code
mutates the shared table, so the right traversal sees the left's writes; a
childless node failing `isalpha` falls through both `if (root->left)` /
`if (root->right)` guards and stores nothing). -/
def storeCodes (root : HuffmanNode) (code : List Char) (codes : CodeTable) :
    CodeTable :=
  match root with
  | .leaf d _ => if isalpha d then codes.update d code else codes
  | .node _ _ l r => storeCodes r (code ++ ['1']) (storeCodes l (code ++ ['0']) codes)

/-- `generateHuffmanCodes`: run `storeCodes` from the root with an empty
path, writing into the caller-supplied table. -/
def generateHuffmanCodes (root : HuffmanNode) (codes : CodeTable) : CodeTable :=
  storeCodes root [] codes

/-- `encodeData`: for each input character in order, append its table entry
followed by one `' '` delimiter (an absent entry contributes only the
delimiter — the C `strcat` of an empty row). -/
def encodeData (data : List Char) (codes : CodeTable) : List Char :=
  match data with
  | [] => []
  | c :: rest => codes c ++ [' '] ++ encodeData rest codes

/-- The `if (encodedData[i + 1] == ' ') i++;` lookahead of `decodeData`:
after an emit, one immediately following delimiter is consumed. -/
def skipSpace : List Char → List Char
  | ' ' :: rs => rs
  | rest => rest

@[simp] lemma skipSpace_nil : skipSpace [] = [] := rfl
@[simp] lemma skipSpace_space (rs : List Char) : skipSpace (' ' :: rs) = rs := rfl
lemma skipSpace_other (c : Char) (rs : List Char) (h : c ≠ ' ') :
    skipSpace (c :: rs) = c :: rs := by
  unfold skipSpace
  split
  · rename_i heq; cases heq; exact absurd rfl h
  · rfl

lemma length_skipSpace (l : List Char) : (skipSpace l).length ≤ l.length := by
  unfold skipSpace; split <;> simp

/-- The scanning loop of `decodeData`.  Per character: `'0'` steps to the
left child, `'1'` to the right (stepping onto a `NULL` child makes the next
`currentNode->left` dereference crash: result `none`); any other character
leaves the cursor in place.  If the node now under the cursor has both
children `NULL`, or the character read was the `' '` delimiter, emit that
node's `data`, reset the cursor to the root and skip one following
delimiter. -/
def decodeLoop (root currentNode : HuffmanNode) (encoded : List Char) :
    Option (List Char) :=
  match encoded with
  | [] => some []
  | c :: rest =>
    let stepped : Option HuffmanNode :=
      if c = '0' then currentNode.left
      else if c = '1' then currentNode.right
      else some currentNode
    match stepped with
    | none => none
    | some cur =>
      if (cur.left.isNone && cur.right.isNone) || c = ' ' then
        (decodeLoop root root (skipSpace rest)).map (fun ds => cur.data :: ds)
      else
        decodeLoop root cur rest
termination_by encoded.length
decreasing_by
  · have := length_skipSpace rest; simp only [List.length_cons]; omega
  · simp only [List.length_cons]; omega

/-- `decodeData`: walk the encoded stream from the root.  The final
`*decodedPtr = '\0'` terminates the produced list; a `NULL`-pointer
dereference (stream walks off a leaf into an absent child) is `none`. -/
def decodeData (root : HuffmanNode) (encodedData : List Char) :
    Option (List Char) :=
  decodeLoop root root encodedData

/-- The zero-initialised `codes[256][256]` of `main`. -/
def emptyCodes : CodeTable := fun _ => []

/-! ## Priority-queue lemmas -/

/-- The queue array is sorted by ascending frequency. -/
def QueueSorted (l : List HuffmanNode) : Prop :=
  l.Pairwise (fun a b => a.freq ≤ b.freq)

/-- The predicate the backwards insertion scan shifts over. -/
def heavier (node : HuffmanNode) : HuffmanNode → Bool :=
  fun x => decide (node.freq < x.freq)

lemma insertScan_eq (node : HuffmanNode) (l : List HuffmanNode) :
    insertScan node l =
      l.takeWhile (heavier node) ++ node :: l.dropWhile (heavier node) := by
  induction l with
  | nil => rfl
  | cons x xs ih =>
    by_cases h : node.freq < x.freq <;>
      simp [insertScan, h, ih, List.takeWhile_cons, List.dropWhile_cons, heavier]

lemma insertArray_split (node : HuffmanNode) (l : List HuffmanNode) :
    insertArray node l =
      (l.reverse.dropWhile (heavier node)).reverse
        ++ node :: (l.reverse.takeWhile (heavier node)).reverse := by
  simp [insertArray, insertScan_eq, List.reverse_append]

lemma split_of_reverse (p : HuffmanNode → Bool) (l : List HuffmanNode) :
    l = (l.reverse.dropWhile p).reverse ++ (l.reverse.takeWhile p).reverse := by
  have h := List.takeWhile_append_dropWhile (p := p) (l := l.reverse)
  calc l = l.reverse.reverse := (List.reverse_reverse l).symm
    _ = (List.takeWhile p l.reverse ++ List.dropWhile p l.reverse).reverse := by rw [h]
    _ = (List.dropWhile p l.reverse).reverse ++ (List.takeWhile p l.reverse).reverse := by
        rw [List.reverse_append]

lemma mem_insertArray {x node : HuffmanNode} {l : List HuffmanNode} :
    x ∈ insertArray node l ↔ x = node ∨ x ∈ l := by
  rw [insertArray_split]
  constructor
  · intro h
    rcases List.mem_append.1 h with h | h
    · exact Or.inr (by
        have : x ∈ l.reverse.dropWhile (heavier node) := List.mem_reverse.1 h
        exact List.mem_reverse.1 ((List.dropWhile_sublist _).mem this))
    · rcases List.mem_cons.1 h with h | h
      · exact Or.inl h
      · exact Or.inr (by
          have : x ∈ l.reverse.takeWhile (heavier node) := List.mem_reverse.1 h
          exact List.mem_reverse.1 ((List.takeWhile_sublist _).mem this))
  · intro h
    rcases h with h | h
    · exact List.mem_append.2 (Or.inr (List.mem_cons.2 (Or.inl h)))
    · rw [split_of_reverse (heavier node) l] at h
      rcases List.mem_append.1 h with h | h
      · exact List.mem_append.2 (Or.inl h)
      · exact List.mem_append.2 (Or.inr (List.mem_cons.2 (Or.inr h)))

lemma dropWhile_freq_le (node : HuffmanNode) (l : List HuffmanNode)
    (hs : l.Pairwise (fun a b => b.freq ≤ a.freq)) :
    ∀ x ∈ l.dropWhile (heavier node), x.freq ≤ node.freq := by
  induction l with
  | nil => simp
  | cons y ys ih =>
    rw [List.pairwise_cons] at hs
    by_cases h : node.freq < y.freq
    · rw [List.dropWhile_cons_of_pos (by simpa [heavier] using h)]
      exact ih hs.2
    · rw [List.dropWhile_cons_of_neg (by simpa [heavier] using h)]
      intro x hx
      rcases List.mem_cons.1 hx with rfl | hx
      · omega
      · exact le_trans (hs.1 x hx) (by omega)

lemma takeWhile_freq_gt (node : HuffmanNode) (l : List HuffmanNode) :
    ∀ x ∈ l.takeWhile (heavier node), node.freq < x.freq := by
  intro x hx
  have := List.mem_takeWhile_imp hx
  simpa [heavier] using this

/-- Core behaviour of the C insertion on a sorted array: it splits the array
into the (kept-in-place) elements of frequency at most `node.freq` and the
(shifted) strictly heavier tail, and puts `node` in between. -/
lemma insertArray_sorted_split (node : HuffmanNode) (l : List HuffmanNode)
    (hs : QueueSorted l) :
    ∃ l₁ l₂, l = l₁ ++ l₂ ∧ insertArray node l = l₁ ++ node :: l₂ ∧
      (∀ x ∈ l₁, x.freq ≤ node.freq) ∧ (∀ x ∈ l₂, node.freq < x.freq) ∧
      QueueSorted (insertArray node l) := by
  refine ⟨(l.reverse.dropWhile (heavier node)).reverse,
          (l.reverse.takeWhile (heavier node)).reverse,
          split_of_reverse _ l, insertArray_split node l, ?_, ?_, ?_⟩
  · intro x hx
    exact dropWhile_freq_le node l.reverse
      ((List.pairwise_reverse).2 hs) x (List.mem_reverse.1 hx)
  · intro x hx
    exact takeWhile_freq_gt node l.reverse x (List.mem_reverse.1 hx)
  · rw [insertArray_split]
    have hsplit := split_of_reverse (heavier node) l
    have hpw : List.Pairwise (fun a b : HuffmanNode => a.freq ≤ b.freq)
        ((l.reverse.dropWhile (heavier node)).reverse
          ++ (l.reverse.takeWhile (heavier node)).reverse) := hsplit ▸ hs
    rcases List.pairwise_append.1 hpw with ⟨h₁, h₂, h₁₂⟩
    refine List.pairwise_append.2 ⟨h₁, ?_, ?_⟩
    · refine List.pairwise_cons.2 ⟨?_, h₂⟩
      intro x hx
      exact le_of_lt (takeWhile_freq_gt node l.reverse x (List.mem_reverse.1 hx))
    · intro a ha b hb
      rcases List.mem_cons.1 hb with hb0 | hb
      · rw [hb0]
        exact dropWhile_freq_le node l.reverse
          ((List.pairwise_reverse).2 hs) a (List.mem_reverse.1 ha)
      · exact h₁₂ a ha b hb

lemma queueSorted_insertArray (node : HuffmanNode) (l : List HuffmanNode)
    (hs : QueueSorted l) : QueueSorted (insertArray node l) := by
  obtain ⟨l₁, l₂, -, -, -, -, hs'⟩ := insertArray_sorted_split node l hs
  exact hs'

/-! ## Claim C7 — stable insertion on ties -/

/-- C7 (confirmed): on a queue whose array is sorted by ascending weight and
that is not full, `insertSortedArrayPriorityQueue` splits the array as
`l₁ ++ l₂` with every element of `l₁` of weight at most `node.freq` and every
element of `l₂` strictly heavier, and places the new node exactly between
them — in particular after every existing node of equal weight — and the
resulting array is again sorted by ascending weight. -/
theorem claim7_insert_stable_on_ties (queue : SortedArrayPriorityQueue)
    (node : HuffmanNode) (hs : QueueSorted queue.array)
    (hcap : queue.array.length < queue.capacity) :
    ∃ l₁ l₂, queue.array = l₁ ++ l₂ ∧
      (insertSortedArrayPriorityQueue queue node).array = l₁ ++ node :: l₂ ∧
      (∀ x ∈ l₁, x.freq ≤ node.freq) ∧
      (∀ x ∈ l₂, node.freq < x.freq) ∧
      QueueSorted (insertSortedArrayPriorityQueue queue node).array := by
  have hne : queue.array.length ≠ queue.capacity := Nat.ne_of_lt hcap
  obtain ⟨l₁, l₂, heq, hins, h₁, h₂, hsorted⟩ :=
    insertArray_sorted_split node queue.array hs
  refine ⟨l₁, l₂, heq, ?_, h₁, h₂, ?_⟩
  · simp [insertSortedArrayPriorityQueue, hne, hins]
  · simp only [insertSortedArrayPriorityQueue, hne, if_false]
    exact hsorted

/-- Closed instance of C7: inserting a weight-2 node into the sorted,
non-full queue `[a:1, b:2]` (capacity 3). -/
theorem claim7_insert_stable_on_ties_witness :
    ∃ l₁ l₂,
      (SortedArrayPriorityQueue.mk 3
        [HuffmanNode.leaf 'a' 1, HuffmanNode.leaf 'b' 2]).array = l₁ ++ l₂ ∧
      (insertSortedArrayPriorityQueue
        (SortedArrayPriorityQueue.mk 3
          [HuffmanNode.leaf 'a' 1, HuffmanNode.leaf 'b' 2])
        (HuffmanNode.leaf 'c' 2)).array = l₁ ++ HuffmanNode.leaf 'c' 2 :: l₂ ∧
      (∀ x ∈ l₁, x.freq ≤ (HuffmanNode.leaf 'c' 2).freq) ∧
      (∀ x ∈ l₂, (HuffmanNode.leaf 'c' 2).freq < x.freq) ∧
      QueueSorted (insertSortedArrayPriorityQueue
        (SortedArrayPriorityQueue.mk 3
          [HuffmanNode.leaf 'a' 1, HuffmanNode.leaf 'b' 2])
        (HuffmanNode.leaf 'c' 2)).array :=
  claim7_insert_stable_on_ties _ _
    (by constructor <;> simp [HuffmanNode.freq]) (by decide)

/-! ## Claim C8 — shape of the merge step -/

/-- C8 (confirmed): whenever more than one node remains, the merge loop of
`buildHuffmanTree` extracts the front node `a` first and `b` second, makes
them respectively the left and the right child of a new `'$'` internal node
whose weight is `a.freq + b.freq`, inserts that node back into the queue and
continues; when exactly one node remains, the loop stops and that node is
what the final `extractMin` returns as root. -/
theorem claim8_merge_step (queue : SortedArrayPriorityQueue) :
    (∀ a b rest, queue.array = a :: b :: rest →
      extractMin queue = (some a, { queue with array := b :: rest }) ∧
      extractMin { queue with array := b :: rest } =
        (some b, { queue with array := rest }) ∧
      buildLoop queue.capacity queue.array =
        buildLoop queue.capacity
          (insertSortedArrayPriorityQueue { queue with array := rest }
            (HuffmanNode.node '$' (a.freq + b.freq) a b)).array) ∧
    (∀ r, queue.array = [r] →
      buildLoop queue.capacity queue.array = [r] ∧
      (extractMin
        { queue with array := buildLoop queue.capacity queue.array }).1 = some r) := by
  constructor
  · intro a b rest h
    refine ⟨by simp [extractMin, h], by simp [extractMin], ?_⟩
    rw [h, buildLoop]
    simp only [insertSortedArrayPriorityQueue]
    congr 1
    split <;> rfl
  · intro r h
    have hb : buildLoop queue.capacity [r] = [r] := by
      rw [buildLoop]
      intro a b rest hab
      simp at hab
    rw [h, hb]
    exact ⟨rfl, by simp [extractMin]⟩

/-- Closed instance of C8 at the queue `[a:1, b:2, c:4]` (capacity 3). -/
theorem claim8_merge_step_witness :
    extractMin
        (SortedArrayPriorityQueue.mk 3
          [HuffmanNode.leaf 'a' 1, HuffmanNode.leaf 'b' 2, HuffmanNode.leaf 'c' 4]) =
      (some (HuffmanNode.leaf 'a' 1),
        { SortedArrayPriorityQueue.mk 3
            [HuffmanNode.leaf 'a' 1, HuffmanNode.leaf 'b' 2, HuffmanNode.leaf 'c' 4]
          with array := [HuffmanNode.leaf 'b' 2, HuffmanNode.leaf 'c' 4] }) ∧
    extractMin
        { SortedArrayPriorityQueue.mk 3
            [HuffmanNode.leaf 'a' 1, HuffmanNode.leaf 'b' 2, HuffmanNode.leaf 'c' 4]
          with array := [HuffmanNode.leaf 'b' 2, HuffmanNode.leaf 'c' 4] } =
      (some (HuffmanNode.leaf 'b' 2),
        { SortedArrayPriorityQueue.mk 3
            [HuffmanNode.leaf 'a' 1, HuffmanNode.leaf 'b' 2, HuffmanNode.leaf 'c' 4]
          with array := [HuffmanNode.leaf 'c' 4] }) ∧
    buildLoop 3 [HuffmanNode.leaf 'a' 1, HuffmanNode.leaf 'b' 2, HuffmanNode.leaf 'c' 4] =
      buildLoop 3
        (insertSortedArrayPriorityQueue
          { SortedArrayPriorityQueue.mk 3
              [HuffmanNode.leaf 'a' 1, HuffmanNode.leaf 'b' 2, HuffmanNode.leaf 'c' 4]
            with array := [HuffmanNode.leaf 'c' 4] }
          (HuffmanNode.node '$'
            ((HuffmanNode.leaf 'a' 1).freq + (HuffmanNode.leaf 'b' 2).freq)
            (HuffmanNode.leaf 'a' 1) (HuffmanNode.leaf 'b' 2))).array :=
  (claim8_merge_step _).1 (HuffmanNode.leaf 'a' 1) (HuffmanNode.leaf 'b' 2)
    [HuffmanNode.leaf 'c' 4] rfl

/-! ## Claim C5 — empty frequency table -/

/-- C5 counterexample: the claim says building from an empty table "does not
return a usable (null or garbage) root" but signals a distinct
`InvalidInput` condition.  In fact `buildHuffmanTree` of the empty table
returns exactly the `NULL` root (`none`): the null pointer IS the only error
signal, there is no separate condition. -/
theorem claim5_counterexample : buildHuffmanTree [] [] = none := by
  rw [buildHuffmanTree]
  simp [createSortedArrayPriorityQueue, buildLoop, extractMin]

/-- C5 (corrected): building from an empty symbol array returns the `NULL`
root (`none`), never `some` tree; this null return is the only way the
failure is signalled, and callers can check it. -/
theorem claim5_empty_table_null_root (freq : List Nat) :
    buildHuffmanTree [] freq = none := by
  rw [buildHuffmanTree]
  simp [createSortedArrayPriorityQueue, buildLoop, extractMin]

/-! ## Claim C3 — unknown symbol during encode -/

/-- C3 counterexample: encoding a text containing `'x'`, a character absent
from the code table built over the alphabet `{a, b}`, does not raise any
error: `encodeData` silently contributes the empty code plus the delimiter
for `'x'` and goes on (the output is `" 0 "`). -/
theorem claim3_counterexample :
    buildHuffmanTree ['a', 'b'] [1, 2] =
        some (HuffmanNode.node '$' 3 (HuffmanNode.leaf 'a' 1) (HuffmanNode.leaf 'b' 2)) ∧
    generateHuffmanCodes
        (HuffmanNode.node '$' 3 (HuffmanNode.leaf 'a' 1) (HuffmanNode.leaf 'b' 2))
        emptyCodes 'x' = [] ∧
    encodeData ['x', 'a']
        (generateHuffmanCodes
          (HuffmanNode.node '$' 3 (HuffmanNode.leaf 'a' 1) (HuffmanNode.leaf 'b' 2))
          emptyCodes) = [' ', '0', ' '] := by
  refine ⟨?_, by decide, by decide⟩
  rw [buildHuffmanTree]
  simp [createSortedArrayPriorityQueue, insertSortedArrayPriorityQueue,
    insertArray, insertScan, createHuffmanNode, buildLoop, extractMin]

/-- C3 (corrected): for a character whose table entry is absent (the empty
row), `encodeData` silently appends only the delimiter — the character's
code is omitted from the stream and no `UnknownSymbol` error exists in the
code (the function has no error channel at all). -/
theorem claim3_unknown_symbol_silent (codes : CodeTable) (c : Char)
    (rest : List Char) (h : codes c = []) :
    encodeData (c :: rest) codes = ' ' :: encodeData rest codes := by
  simp [encodeData, h]

/-- Closed instance of C3 (corrected) at the `{a, b}` table and text "xa". -/
theorem claim3_unknown_symbol_silent_witness :
    encodeData ['x', 'a']
        (generateHuffmanCodes
          (HuffmanNode.node '$' 3 (HuffmanNode.leaf 'a' 1) (HuffmanNode.leaf 'b' 2))
          emptyCodes) =
      ' ' :: encodeData ['a']
        (generateHuffmanCodes
          (HuffmanNode.node '$' 3 (HuffmanNode.leaf 'a' 1) (HuffmanNode.leaf 'b' 2))
          emptyCodes) :=
  claim3_unknown_symbol_silent _ 'x' ['a'] (by decide)

/-! ## Claim C4 — single-symbol boundary -/

/-- C4 (code bug): for the one-entry table `{a: 1}` the root is indeed the
single leaf, but the generated table maps `'a'` to the EMPTY bit-string
(no non-empty code convention is implemented), and encode-then-decode of
`"aa"` loses a character: the all-delimiter stream `"  "` decodes to `"a"`.
This contradicts the claim's required non-empty code and exact round-trip. -/
theorem claim4_single_symbol_bug :
    buildHuffmanTree ['a'] [1] = some (HuffmanNode.leaf 'a' 1) ∧
    generateHuffmanCodes (HuffmanNode.leaf 'a' 1) emptyCodes 'a' = [] ∧
    encodeData ['a', 'a'] (generateHuffmanCodes (HuffmanNode.leaf 'a' 1) emptyCodes) =
      [' ', ' '] ∧
    decodeData (HuffmanNode.leaf 'a' 1)
        (encodeData ['a', 'a'] (generateHuffmanCodes (HuffmanNode.leaf 'a' 1) emptyCodes)) =
      some ['a'] := by
  refine ⟨?_, by decide, by decide, ?_⟩
  · rw [buildHuffmanTree]
    simp [createSortedArrayPriorityQueue, insertSortedArrayPriorityQueue,
      insertArray, insertScan, createHuffmanNode, buildLoop, extractMin]
  · have h : encodeData ['a', 'a']
        (generateHuffmanCodes (HuffmanNode.leaf 'a' 1) emptyCodes) = [' ', ' '] := by
      decide
    rw [h, decodeData, decodeLoop]
    simp [decodeLoop, skipSpace, HuffmanNode.left, HuffmanNode.right, HuffmanNode.data]

/-! ## Characterisation of the generated code table -/

/-- The DFS-ordered list of `(symbol, path)` pairs that `storeCodes root code`
copies into the table: left subtree first with `'0'` appended, then the
right subtree with `'1'` appended; only childless nodes passing `isalpha`
are recorded. -/
def leafCodes (root : HuffmanNode) (code : List Char) : List (Char × List Char) :=
  match root with
  | .leaf d _ => if isalpha d then [(d, code)] else []
  | .node _ _ l r => leafCodes l (code ++ ['0']) ++ leafCodes r (code ++ ['1'])

/-- `storeCodes` realises exactly the `leafCodes` recording sequence: the
final table maps `c` to the LAST recorded path with key `c` (later `strcpy`s
overwrite earlier ones), and leaves the caller's row untouched when no pair
with key `c` is recorded. -/
lemma storeCodes_eval (root : HuffmanNode) (code : List Char) (codes : CodeTable)
    (c : Char) :
    storeCodes root code codes c =
      match (leafCodes root code).reverse.find? (fun e => decide (e.1 = c)) with
      | some e => e.2
      | none => codes c := by
  induction root generalizing code codes with
  | leaf d f =>
    by_cases h : isalpha d
    · by_cases hc : d = c
      · subst hc
        simp [storeCodes, leafCodes, h, List.find?, CodeTable.update]
      · simp [storeCodes, leafCodes, h, List.find?, hc, CodeTable.update, Ne.symm hc]
    · simp [storeCodes, leafCodes, h]
  | node d f l r ihl ihr =>
    simp only [storeCodes, leafCodes, List.reverse_append, List.find?_append]
    rw [ihr]
    cases hfind : (leafCodes r (code ++ ['1'])).reverse.find? (fun e => decide (e.1 = c)) with
    | some e => simp [Option.or]
    | none =>
      simp only [Option.or]
      exact ihl _ codes

lemma leafCodes_alpha (t : HuffmanNode) (code : List Char) :
    ∀ e ∈ leafCodes t code, isalpha e.1 = true := by
  induction t generalizing code with
  | leaf d f =>
    intro e he
    by_cases h : isalpha d <;> simp [leafCodes, h] at he
    rw [he]
    simpa using h
  | node d f l r ihl ihr =>
    intro e he
    rcases List.mem_append.1 (by simpa [leafCodes] using he) with h | h
    · exact ihl _ e h
    · exact ihr _ e h

lemma leafCodes_extends (t : HuffmanNode) (code : List Char) :
    ∀ e ∈ leafCodes t code, ∃ q, e.2 = code ++ q := by
  induction t generalizing code with
  | leaf d f =>
    intro e he
    by_cases h : isalpha d <;> simp [leafCodes, h] at he
    exact ⟨[], by rw [he]; simp⟩
  | node d f l r ihl ihr =>
    intro e he
    rcases List.mem_append.1 (by simpa [leafCodes] using he) with h | h
    · obtain ⟨q, hq⟩ := ihl _ e h
      exact ⟨'0' :: q, by simp [hq]⟩
    · obtain ⟨q, hq⟩ := ihr _ e h
      exact ⟨'1' :: q, by simp [hq]⟩

/-- `a` is an initial segment of `b` (the prefix relation of the spec). -/
def IsPref (a b : List Char) : Prop := ∃ t, a ++ t = b

lemma isPref_branch_false (b b' : Char) (hbb : b ≠ b') (acc x y : List Char) :
    ¬ IsPref (acc ++ b :: x) (acc ++ b' :: y) := by
  rintro ⟨t, ht⟩
  rw [List.append_assoc] at ht
  have := List.append_cancel_left ht
  simp at this
  exact hbb this.1

/-- Any two distinct recorded `(symbol, path)` pairs have incomparable
paths: recording happens only at childless nodes, so no recorded path can
continue through another. -/
lemma leafCodes_pairwise_incomp (t : HuffmanNode) (code : List Char) :
    (leafCodes t code).Pairwise
      (fun e e' => ¬ IsPref e.2 e'.2 ∧ ¬ IsPref e'.2 e.2) := by
  induction t generalizing code with
  | leaf d f => by_cases h : isalpha d <;> simp [leafCodes, h]
  | node d f l r ihl ihr =>
    rw [leafCodes]
    refine List.pairwise_append.2 ⟨ihl _, ihr _, ?_⟩
    intro e he e' he'
    obtain ⟨q, hq⟩ := leafCodes_extends l (code ++ ['0']) e he
    obtain ⟨q', hq'⟩ := leafCodes_extends r (code ++ ['1']) e' he'
    rw [hq, hq']
    constructor
    · simpa [List.append_assoc] using isPref_branch_false '0' '1' (by decide) code q q'
    · simpa [List.append_assoc] using isPref_branch_false '1' '0' (by decide) code q' q

/-- A non-empty row of the generated table is one of the recorded pairs. -/
lemma codes_entry_of_ne_nil {root : HuffmanNode} {c : Char}
    (h : generateHuffmanCodes root emptyCodes c ≠ []) :
    ∃ p, (c, p) ∈ leafCodes root [] ∧ generateHuffmanCodes root emptyCodes c = p := by
  have he := storeCodes_eval root [] emptyCodes c
  rw [generateHuffmanCodes] at h ⊢
  cases hf : (leafCodes root []).reverse.find? (fun e => decide (e.1 = c)) with
  | none =>
    rw [he, hf] at h
    exact absurd rfl h
  | some e =>
    have hmem : e ∈ leafCodes root [] :=
      List.mem_reverse.1 (List.mem_of_find?_eq_some hf)
    have hkey : e.1 = c := by
      have := List.find?_some hf
      simpa using this
    refine ⟨e.2, ?_, by rw [he, hf]⟩
    rw [← hkey]
    simpa using hmem

/-- If some pair with key `c` is recorded, the table's row for `c` is a
recorded pair for `c` (the last one in DFS order). -/
lemma codes_entry_found {root : HuffmanNode} {c : Char} {p : List Char}
    (hmem : (c, p) ∈ leafCodes root []) :
    ∃ p', (c, p') ∈ leafCodes root [] ∧ generateHuffmanCodes root emptyCodes c = p' := by
  have he := storeCodes_eval root [] emptyCodes c
  rw [generateHuffmanCodes]
  cases hf : (leafCodes root []).reverse.find? (fun e => decide (e.1 = c)) with
  | none =>
    exfalso
    have := List.find?_eq_none.1 hf (c, p) (List.mem_reverse.2 hmem)
    simp at this
  | some e =>
    have hm : e ∈ leafCodes root [] :=
      List.mem_reverse.1 (List.mem_of_find?_eq_some hf)
    have hkey : e.1 = c := by
      have := List.find?_some hf
      simpa using this
    refine ⟨e.2, ?_, by rw [he, hf]⟩
    rw [← hkey]
    simpa using hm

/-- Rows of non-alphabetic symbols are never written: the caller's
zero-initialised row stays empty. -/
lemma codes_nonalpha {root : HuffmanNode} {c : Char} (h : isalpha c = false) :
    generateHuffmanCodes root emptyCodes c = [] := by
  have he := storeCodes_eval root [] emptyCodes c
  rw [generateHuffmanCodes]
  have hf : (leafCodes root []).reverse.find? (fun e => decide (e.1 = c)) = none := by
    apply List.find?_eq_none.2
    intro e hmem
    have ha := leafCodes_alpha root [] e (List.mem_reverse.1 hmem)
    simp only [decide_eq_true_eq]
    intro hk
    rw [hk, h] at ha
    cases ha
  rw [he, hf]
  rfl

/-- In a tree whose root is an internal node, every recorded path is
non-empty (it starts with the branch bit of the root). -/
lemma leafCodes_ne_nil_of_internal (d : Char) (f : Nat) (l r : HuffmanNode) :
    ∀ e ∈ leafCodes (HuffmanNode.node d f l r) [], e.2 ≠ [] := by
  intro e he
  rcases List.mem_append.1 (by simpa [leafCodes] using he) with h | h
  · obtain ⟨q, hq⟩ := leafCodes_extends l (([] : List Char) ++ ['0']) e h
    simp [hq]
  · obtain ⟨q, hq⟩ := leafCodes_extends r (([] : List Char) ++ ['1']) e h
    simp [hq]

/-- The multiset of leaf symbols of a tree, in DFS order. -/
def treeChars : HuffmanNode → List Char
  | .leaf d _ => [d]
  | .node _ _ l r => treeChars l ++ treeChars r

lemma mem_leafCodes_of_alpha_mem {c : Char} (halpha : isalpha c = true) :
    ∀ (t : HuffmanNode) (code : List Char), c ∈ treeChars t →
      ∃ p, (c, p) ∈ leafCodes t code := by
  intro t
  induction t with
  | leaf d f =>
    intro code hc
    simp [treeChars] at hc
    subst hc
    exact ⟨code, by simp [leafCodes, halpha]⟩
  | node d f l r ihl ihr =>
    intro code hc
    rcases List.mem_append.1 (by simpa [treeChars] using hc) with h | h
    · obtain ⟨p, hp⟩ := ihl (code ++ ['0']) h
      exact ⟨p, by rw [leafCodes]; exact List.mem_append.2 (Or.inl hp)⟩
    · obtain ⟨p, hp⟩ := ihr (code ++ ['1']) h
      exact ⟨p, by rw [leafCodes]; exact List.mem_append.2 (Or.inr hp)⟩

/-! ## Structure of the built tree -/

/-- The leaf symbols present anywhere in a queue. -/
def queueChars (q : List HuffmanNode) : List Char :=
  (q.map treeChars).flatten

lemma mem_queueChars {c : Char} {q : List HuffmanNode} :
    c ∈ queueChars q ↔ ∃ T ∈ q, c ∈ treeChars T := by
  simp [queueChars, List.mem_flatten]

lemma buildLoop_nil (cap : Nat) : buildLoop cap [] = [] := by
  rw [buildLoop]
  intro a b rest h
  simp at h

lemma buildLoop_single (cap : Nat) (x : HuffmanNode) : buildLoop cap [x] = [x] := by
  rw [buildLoop]
  intro a b rest h
  simp at h

lemma buildLoop_cons_cons (cap : Nat) (a b : HuffmanNode) (rest : List HuffmanNode)
    (h : rest.length ≠ cap) :
    buildLoop cap (a :: b :: rest) =
      buildLoop cap (insertArray (HuffmanNode.node '$' (a.freq + b.freq) a b) rest) := by
  rw [buildLoop]
  simp [h]

@[simp] lemma insertArray_nil (node : HuffmanNode) : insertArray node [] = [node] := by
  simp [insertArray, insertScan]

/-- On a queue of at least two nodes not exceeding capacity, the merge loop
finishes with a single internal node. -/
lemma buildLoop_internal :
    ∀ (n cap : Nat) (q : List HuffmanNode), q.length ≤ n → 2 ≤ q.length →
      q.length ≤ cap →
      ∃ d f l r, buildLoop cap q = [HuffmanNode.node d f l r] := by
  intro n
  induction n with
  | zero =>
    intro cap q hn h2 _
    omega
  | succ m ih =>
    intro cap q hn h2 hcap
    match q with
    | a :: b :: rest =>
      have hne : rest.length ≠ cap := by
        simp only [List.length_cons] at hcap
        omega
      rw [buildLoop_cons_cons cap a b rest hne]
      rcases rest with _ | ⟨x, xs⟩
      · exact ⟨'$', a.freq + b.freq, a, b, by simp [buildLoop_single]⟩
      · apply ih
        · simp only [List.length_cons] at hn ⊢
          rw [length_insertArray]
          simp only [List.length_cons]
          omega
        · rw [length_insertArray]; simp
        · rw [length_insertArray]
          simp only [List.length_cons] at hcap ⊢
          omega

/-- The merge loop never loses leaf symbols (capacity is never exceeded
inside the loop, so no insertion is dropped). -/
lemma buildLoop_chars :
    ∀ (n cap : Nat) (q : List HuffmanNode), q.length ≤ n → q.length ≤ cap →
      ∀ c, c ∈ queueChars q → c ∈ queueChars (buildLoop cap q) := by
  intro n
  induction n with
  | zero =>
    intro cap q hn _ c hc
    have hq : q = [] := List.length_eq_zero.1 (Nat.le_zero.1 hn)
    subst hq
    simpa [buildLoop_nil] using hc
  | succ m ih =>
    intro cap q hn hcap c hc
    match q with
    | [] => simpa [buildLoop_nil] using hc
    | [x] => simpa [buildLoop_single] using hc
    | a :: b :: rest =>
      have hne : rest.length ≠ cap := by
        simp only [List.length_cons] at hcap
        omega
      rw [buildLoop_cons_cons cap a b rest hne]
      apply ih
      · simp only [List.length_cons] at hn ⊢
        rw [length_insertArray]
        omega
      · rw [length_insertArray]
        simp only [List.length_cons] at hcap ⊢
        omega
      · rcases mem_queueChars.1 hc with ⟨T, hT, hcT⟩
        apply mem_queueChars.2
        rcases List.mem_cons.1 hT with h | hT'
        · refine ⟨HuffmanNode.node '$' (a.freq + b.freq) a b, mem_insertArray.2 (Or.inl rfl), ?_⟩
          rw [treeChars]
          rw [h] at hcT
          exact List.mem_append.2 (Or.inl hcT)
        · rcases List.mem_cons.1 hT' with h | hT''
          · refine ⟨HuffmanNode.node '$' (a.freq + b.freq) a b, mem_insertArray.2 (Or.inl rfl), ?_⟩
            rw [treeChars]
            rw [h] at hcT
            exact List.mem_append.2 (Or.inr hcT)
          · exact ⟨T, mem_insertArray.2 (Or.inr hT''), hcT⟩

/-- Seeding the fresh queue with the table's leaves: capacity is preserved,
the array grows by one per entry (no insertion is dropped while the total
stays within capacity), and the queue's leaf symbols are exactly the seeded
symbols plus whatever was already there. -/
lemma seed_spec :
    ∀ (entries : List (Char × Nat)) (q : SortedArrayPriorityQueue),
      q.array.length + entries.length ≤ q.capacity →
      ((entries.foldl
          (fun q e => insertSortedArrayPriorityQueue q (createHuffmanNode e.1 e.2))
          q).capacity = q.capacity ∧
       (entries.foldl
          (fun q e => insertSortedArrayPriorityQueue q (createHuffmanNode e.1 e.2))
          q).array.length = q.array.length + entries.length ∧
       ∀ c, c ∈ queueChars (entries.foldl
          (fun q e => insertSortedArrayPriorityQueue q (createHuffmanNode e.1 e.2))
          q).array ↔
            (c ∈ queueChars q.array ∨ ∃ f, (c, f) ∈ entries)) := by
  intro entries
  induction entries with
  | nil =>
    intro q _
    simp
  | cons e es ih =>
    intro q hcap
    simp only [List.foldl_cons, List.length_cons] at hcap ⊢
    have hne : q.array.length ≠ q.capacity := by omega
    have hstep : insertSortedArrayPriorityQueue q (createHuffmanNode e.1 e.2) =
        SortedArrayPriorityQueue.mk q.capacity
          (insertArray (HuffmanNode.leaf e.1 e.2) q.array) := by
      simp [insertSortedArrayPriorityQueue, hne, createHuffmanNode]
    rw [hstep]
    obtain ⟨h1, h2, h3⟩ := ih
      (SortedArrayPriorityQueue.mk q.capacity
        (insertArray (HuffmanNode.leaf e.1 e.2) q.array))
      (by simp only [length_insertArray]; omega)
    refine ⟨h1, by rw [h2]; simp only [length_insertArray]; omega, ?_⟩
    intro c
    rw [h3 c]
    have hq : c ∈ queueChars (insertArray (HuffmanNode.leaf e.1 e.2) q.array) ↔
        (c = e.1 ∨ c ∈ queueChars q.array) := by
      rw [mem_queueChars]
      constructor
      · rintro ⟨T, hT, hcT⟩
        rcases mem_insertArray.1 hT with h | h
        · rw [h] at hcT
          simp [treeChars] at hcT
          exact Or.inl hcT
        · exact Or.inr (mem_queueChars.2 ⟨T, h, hcT⟩)
      · rintro (h | h)
        · exact ⟨HuffmanNode.leaf e.1 e.2, mem_insertArray.2 (Or.inl rfl),
            by simp [treeChars, h]⟩
        · rcases mem_queueChars.1 h with ⟨T, hT, hcT⟩
          exact ⟨T, mem_insertArray.2 (Or.inr hT), hcT⟩
    rw [hq]
    constructor
    · rintro (⟨h | h⟩ | ⟨f, hf⟩)
      · exact Or.inr ⟨e.2, by simp [h]⟩
      · exact Or.inl h
      · exact Or.inr ⟨f, List.mem_cons.2 (Or.inr hf)⟩
    · rintro (h | ⟨f, hf⟩)
      · exact Or.inl (Or.inr h)
      · rcases List.mem_cons.1 hf with h | h
        · refine Or.inl (Or.inl ?_)
          have : c = e.1 := congrArg Prod.fst h
          exact this
        · exact Or.inr ⟨f, h⟩

lemma exists_mem_zip {c : Char} :
    ∀ (l₁ : List Char) (l₂ : List Nat), l₂.length = l₁.length → c ∈ l₁ →
      ∃ f, (c, f) ∈ l₁.zip l₂ := by
  intro l₁
  induction l₁ with
  | nil => simp
  | cons x xs ih =>
    intro l₂ hlen hc
    match l₂ with
    | [] => simp at hlen
    | f :: fs =>
      rcases List.mem_cons.1 hc with h | h
      · exact ⟨f, by rw [h]; simp [List.zip_cons_cons]⟩
      · obtain ⟨g, hg⟩ := ih fs (by simpa using hlen) h
        exact ⟨g, by simp only [List.zip_cons_cons]; exact List.mem_cons.2 (Or.inr hg)⟩

/-- What `buildHuffmanTree` returns on a well-formed non-empty table: a root
containing every table symbol among its leaves, internal as soon as the table
has two entries. -/
lemma build_root_spec (data : List Char) (freq : List Nat)
    (hlen : freq.length = data.length) (h1 : 1 ≤ data.length) :
    ∃ root, buildHuffmanTree data freq = some root ∧
      (∀ c, c ∈ data → c ∈ treeChars root) ∧
      (2 ≤ data.length → ∃ d f l r, root = HuffmanNode.node d f l r) := by
  have hzip : (data.zip freq).length = data.length := by
    rw [List.length_zip, hlen, Nat.min_self]
  obtain ⟨hc, hl, hm⟩ := seed_spec (data.zip freq)
    (createSortedArrayPriorityQueue data.length)
    (by simp [createSortedArrayPriorityQueue, hzip])
  simp only [buildHuffmanTree]
  set seeded := (data.zip freq).foldl
    (fun q e => insertSortedArrayPriorityQueue q (createHuffmanNode e.1 e.2))
    (createSortedArrayPriorityQueue data.length) with hseed
  simp only [createSortedArrayPriorityQueue] at hc hl
  rw [hzip] at hl
  simp only [List.length_nil, Nat.zero_add] at hl
  have hchars : ∀ c, c ∈ data → c ∈ queueChars (buildLoop seeded.capacity seeded.array) := by
    intro c hcd
    apply buildLoop_chars seeded.array.length seeded.capacity seeded.array le_rfl
      (by rw [hl, hc])
    apply (hm c).2
    right
    exact exists_mem_zip data freq hlen hcd
  rcases Nat.lt_or_ge data.length 2 with hsmall | hbig
  · -- exactly one entry: the loop is a no-op and the sole leaf is the root
    have hone : data.length = 1 := by omega
    obtain ⟨x, hx⟩ := List.length_eq_one.1 (by rw [hl, hone])
    refine ⟨x, ?_, ?_, by omega⟩
    · rw [hx, buildLoop_single]
      simp [extractMin]
    · intro c hcd
      have := hchars c hcd
      rw [hx, buildLoop_single] at this
      simpa [queueChars, treeChars] using this
  · obtain ⟨d, f, l, r, hroot⟩ := buildLoop_internal seeded.array.length
      seeded.capacity seeded.array le_rfl (by rw [hl]; exact hbig) (by rw [hl, hc])
    refine ⟨HuffmanNode.node d f l r, ?_, ?_, fun _ => ⟨d, f, l, r, rfl⟩⟩
    · rw [hroot]
      simp [extractMin]
    · intro c hcd
      have := hchars c hcd
      rw [hroot] at this
      simpa [queueChars] using this

/-! ## Claim C2 — the generated table is prefix-free -/

/-- C2 (confirmed): over the tree built from any frequency table of at least
two symbols, any two DISTINCT symbols whose table rows are non-empty (i.e.
that have entries) have incomparable bit-strings: neither is a prefix of the
other.  This holds because `storeCodes` records a path only at childless
nodes, so no recorded path can pass through another recorded path. -/
theorem claim2_prefix_free (data : List Char) (freq : List Nat)
    (root : HuffmanNode) (c c' : Char)
    (hlen : freq.length = data.length) (h2 : 2 ≤ data.length)
    (hroot : buildHuffmanTree data freq = some root)
    (hcc : c ≠ c')
    (hc : generateHuffmanCodes root emptyCodes c ≠ [])
    (hc' : generateHuffmanCodes root emptyCodes c' ≠ []) :
    ¬ IsPref (generateHuffmanCodes root emptyCodes c)
        (generateHuffmanCodes root emptyCodes c') ∧
    ¬ IsPref (generateHuffmanCodes root emptyCodes c')
        (generateHuffmanCodes root emptyCodes c) := by
  obtain ⟨p, hp, hcp⟩ := codes_entry_of_ne_nil hc
  obtain ⟨p', hp', hcp'⟩ := codes_entry_of_ne_nil hc'
  have hpair := leafCodes_pairwise_incomp root []
  have hsymm : Symmetric (fun e e' : Char × List Char =>
      ¬ IsPref e.2 e'.2 ∧ ¬ IsPref e'.2 e.2) := fun a b h => ⟨h.2, h.1⟩
  have hne : ((c, p) : Char × List Char) ≠ (c', p') := by
    intro h
    exact hcc (congrArg Prod.fst h)
  have hr := List.Pairwise.forall hsymm hpair hp hp' hne
  rw [hcp, hcp']
  exact hr

/-- Closed instance of C2 at the table `{a: 1, b: 2}` and the pair `a, b`. -/
theorem claim2_prefix_free_witness :
    ¬ IsPref
        (generateHuffmanCodes
          (HuffmanNode.node '$' 3 (HuffmanNode.leaf 'a' 1) (HuffmanNode.leaf 'b' 2))
          emptyCodes 'a')
        (generateHuffmanCodes
          (HuffmanNode.node '$' 3 (HuffmanNode.leaf 'a' 1) (HuffmanNode.leaf 'b' 2))
          emptyCodes 'b') ∧
    ¬ IsPref
        (generateHuffmanCodes
          (HuffmanNode.node '$' 3 (HuffmanNode.leaf 'a' 1) (HuffmanNode.leaf 'b' 2))
          emptyCodes 'b')
        (generateHuffmanCodes
          (HuffmanNode.node '$' 3 (HuffmanNode.leaf 'a' 1) (HuffmanNode.leaf 'b' 2))
          emptyCodes 'a') :=
  claim2_prefix_free ['a', 'b'] [1, 2]
    (HuffmanNode.node '$' 3 (HuffmanNode.leaf 'a' 1) (HuffmanNode.leaf 'b' 2))
    'a' 'b' (by decide) (by decide)
    (by rw [buildHuffmanTree]
        simp [createSortedArrayPriorityQueue, insertSortedArrayPriorityQueue,
          insertArray, insertScan, createHuffmanNode, buildLoop, extractMin])
    (by decide) (by decide) (by decide)

/-! ## Claim C10 — which leaves get a table entry -/

/-- C10 counterexample: the claim says EVERY leaf symbol of the tree,
"whatever character it is", receives a code-table entry.  But `storeCodes`
guards recording with `isalpha`: the tree built from the table
`{'1': 1, 'b': 2}` has the non-alphabetic leaf `'1'`, whose table row stays
empty (no entry), even though it is a leaf symbol of the tree. -/
theorem claim10_counterexample :
    buildHuffmanTree ['1', 'b'] [1, 2] =
        some (HuffmanNode.node '$' 3 (HuffmanNode.leaf '1' 1) (HuffmanNode.leaf 'b' 2)) ∧
    '1' ∈ treeChars
        (HuffmanNode.node '$' 3 (HuffmanNode.leaf '1' 1) (HuffmanNode.leaf 'b' 2)) ∧
    generateHuffmanCodes
        (HuffmanNode.node '$' 3 (HuffmanNode.leaf '1' 1) (HuffmanNode.leaf 'b' 2))
        emptyCodes '1' = [] := by
  refine ⟨?_, by decide, by decide⟩
  rw [buildHuffmanTree]
  simp [createSortedArrayPriorityQueue, insertSortedArrayPriorityQueue,
    insertArray, insertScan, createHuffmanNode, buildLoop, extractMin]

/-- C10 (corrected): the code-table generator records an entry for exactly
the ALPHABETIC leaf symbols: over a tree built from a table with at least two
entries, every alphabetic leaf symbol gets a non-empty row, and every
non-alphabetic character — in particular the internal-node sentinel `'$'` —
never gets one. -/
theorem claim10_codes_exactly_alpha_leaves (data : List Char) (freq : List Nat)
    (root : HuffmanNode) (c : Char)
    (hlen : freq.length = data.length) (h2 : 2 ≤ data.length)
    (hroot : buildHuffmanTree data freq = some root) :
    (isalpha c = true → c ∈ treeChars root →
      generateHuffmanCodes root emptyCodes c ≠ []) ∧
    (isalpha c = false → generateHuffmanCodes root emptyCodes c = []) := by
  constructor
  · intro halpha hcmem
    obtain ⟨root', hroot', -, hint⟩ := build_root_spec data freq hlen (by omega)
    rw [hroot] at hroot'
    obtain ⟨d, f, l, r, hshape⟩ := hint h2
    have hr : root = HuffmanNode.node d f l r := by
      have := Option.some.inj hroot'
      rw [this, hshape]
    obtain ⟨p, hp⟩ := mem_leafCodes_of_alpha_mem halpha root [] hcmem
    obtain ⟨p', hp', hcp'⟩ := codes_entry_found hp
    rw [hcp']
    have := leafCodes_ne_nil_of_internal d f l r (c, p') (by rw [← hr]; exact hp')
    simpa using this
  · intro hfalse
    exact codes_nonalpha hfalse

/-- Closed instance of C10 (corrected) at the table `{a: 1, b: 2}`: the
alphabetic leaf `'a'` has an entry, the sentinel `'$'` has none. -/
theorem claim10_codes_exactly_alpha_leaves_witness :
    generateHuffmanCodes
        (HuffmanNode.node '$' 3 (HuffmanNode.leaf 'a' 1) (HuffmanNode.leaf 'b' 2))
        emptyCodes 'a' ≠ [] ∧
    generateHuffmanCodes
        (HuffmanNode.node '$' 3 (HuffmanNode.leaf 'a' 1) (HuffmanNode.leaf 'b' 2))
        emptyCodes '$' = [] := by
  have hroot : buildHuffmanTree ['a', 'b'] [1, 2] =
      some (HuffmanNode.node '$' 3 (HuffmanNode.leaf 'a' 1) (HuffmanNode.leaf 'b' 2)) := by
    rw [buildHuffmanTree]
    simp [createSortedArrayPriorityQueue, insertSortedArrayPriorityQueue,
      insertArray, insertScan, createHuffmanNode, buildLoop, extractMin]
  exact ⟨(claim10_codes_exactly_alpha_leaves ['a', 'b'] [1, 2] _ 'a'
      (by decide) (by decide) hroot).1 (by decide) (by decide),
    (claim10_codes_exactly_alpha_leaves ['a', 'b'] [1, 2] _ '$'
      (by decide) (by decide) hroot).2 (by decide)⟩

/-! ## Decoding machinery: walking bit paths -/

/-- Follow a bit path from a node, as `decodeData`'s cursor does: `'0'` goes
to the left child, anything else to the right; stepping into `NULL` is
`none`. -/
def walk (t : HuffmanNode) : List Char → Option HuffmanNode
  | [] => some t
  | b :: bs =>
    match t with
    | .leaf _ _ => none
    | .node _ _ l r => walk (if b = '0' then l else r) bs

lemma walk_append (t : HuffmanNode) (u v : List Char) :
    walk t (u ++ v) =
      match walk t u with
      | none => none
      | some t' => walk t' v := by
  induction u generalizing t with
  | nil => simp [walk]
  | cons b bs ih =>
    cases t with
    | leaf d f => simp [walk]
    | node d f l r =>
      rw [List.cons_append, walk, walk]
      exact ih _

/-- A node from which a non-empty walk succeeds has children: it is an
internal node. -/
lemma walk_source_internal {t m : HuffmanNode} {bs : List Char}
    (h : walk t bs = some m) (hbs : bs ≠ []) :
    ∃ d f l r, t = HuffmanNode.node d f l r := by
  cases t with
  | leaf d f =>
    exfalso
    match bs, hbs with
    | b :: bs', _ => simp [walk] at h
  | node d f l r => exact ⟨d, f, l, r, rfl⟩

/-- Every pair `storeCodes` records walks (relative to the accumulated
path) to a childless node carrying that symbol, over `'0'`/`'1'` bits. -/
lemma walk_of_leafCodes (t : HuffmanNode) (code : List Char) :
    ∀ e ∈ leafCodes t code, ∃ q f, e.2 = code ++ q ∧
      walk t q = some (HuffmanNode.leaf e.1 f) ∧
      (∀ b ∈ q, b = '0' ∨ b = '1') := by
  induction t generalizing code with
  | leaf d f =>
    intro e he
    by_cases h : isalpha d <;> simp [leafCodes, h] at he
    refine ⟨[], f, by rw [he]; simp, ?_, by simp⟩
    rw [he]
    simp [walk]
  | node d f l r ihl ihr =>
    intro e he
    rcases List.mem_append.1 (by simpa [leafCodes] using he) with h | h
    · obtain ⟨q, g, hq, hwalk, hbits⟩ := ihl _ e h
      refine ⟨'0' :: q, g, by simp [hq], ?_, ?_⟩
      · rw [walk]
        simpa using hwalk
      · intro b hb
        rcases List.mem_cons.1 hb with h0 | hb'
        · exact Or.inl h0
        · exact hbits b hb'
    · obtain ⟨q, g, hq, hwalk, hbits⟩ := ihr _ e h
      refine ⟨'1' :: q, g, by simp [hq], ?_, ?_⟩
      · rw [walk]
        simpa using hwalk
      · intro b hb
        rcases List.mem_cons.1 hb with h0 | hb'
        · exact Or.inr h0
        · exact hbits b hb'

/-- One-step unfolding of the decode scan. -/
lemma decodeLoop_cons (root cur : HuffmanNode) (c : Char) (rest : List Char) :
    decodeLoop root cur (c :: rest) =
      match (if c = '0' then cur.left
             else if c = '1' then cur.right else some cur) with
      | none => none
      | some n =>
        if (n.left.isNone && n.right.isNone) || c = ' ' then
          (decodeLoop root root (skipSpace rest)).map (fun ds => n.data :: ds)
        else decodeLoop root n rest := by
  rw [decodeLoop]

@[simp] lemma decodeLoop_nil (root cur : HuffmanNode) :
    decodeLoop root cur [] = some [] := by
  rw [decodeLoop]

lemma decodeLoop_cons_step (root cur n : HuffmanNode) (c : Char) (rest : List Char)
    (hstep : (if c = '0' then cur.left
              else if c = '1' then cur.right else some cur) = some n) :
    decodeLoop root cur (c :: rest) =
      if (n.left.isNone && n.right.isNone) || c = ' ' then
        (decodeLoop root root (skipSpace rest)).map (fun ds => n.data :: ds)
      else decodeLoop root n rest := by
  rw [decodeLoop_cons, hstep]

lemma decodeLoop_cons_none (root cur : HuffmanNode) (c : Char) (rest : List Char)
    (hstep : (if c = '0' then cur.left
              else if c = '1' then cur.right else some cur) = none) :
    decodeLoop root cur (c :: rest) = none := by
  rw [decodeLoop_cons, hstep]

/-- Scanning one complete code: walking the non-empty bit path `p` from `n`
to a childless node emits exactly that node's symbol at the last bit, eats
the single following delimiter, and restarts at the root. -/
lemma decodeLoop_code (root : HuffmanNode) :
    ∀ (p : List Char) (n : HuffmanNode) (c : Char) (f : Nat),
      walk n p = some (HuffmanNode.leaf c f) → p ≠ [] →
      (∀ b ∈ p, b = '0' ∨ b = '1') →
      ∀ rest, decodeLoop root n (p ++ ' ' :: rest) =
        (decodeLoop root root rest).map (fun ds => c :: ds) := by
  intro p
  induction p with
  | nil => intro n c f _ hne; exact absurd rfl hne
  | cons b bs ih =>
    intro n c f hwalk hne hbits rest
    have hb : b = '0' ∨ b = '1' := hbits b (List.mem_cons.2 (Or.inl rfl))
    have hbspace : ¬ (b = ' ') := by rcases hb with h | h <;> rw [h] <;> decide
    cases n with
    | leaf d0 f0 => simp [walk] at hwalk
    | node d0 f0 l0 r0 =>
      rw [walk] at hwalk
      have hstep : (if b = '0' then (HuffmanNode.node d0 f0 l0 r0).left
          else if b = '1' then (HuffmanNode.node d0 f0 l0 r0).right
          else some (HuffmanNode.node d0 f0 l0 r0)) =
          some (if b = '0' then l0 else r0) := by
        rcases hb with h | h <;> rw [h] <;> simp
      rw [List.cons_append, decodeLoop_cons_step root _ _ b _ hstep]
      cases bs with
      | nil =>
        have ht' : (if b = '0' then l0 else r0) = HuffmanNode.leaf c f := by
          rw [walk] at hwalk
          exact Option.some.inj hwalk
        rw [ht']
        simp [hbspace, skipSpace]
      | cons b' bs' =>
        obtain ⟨d2, f2, l2, r2, ht'⟩ :=
          walk_source_internal hwalk (List.cons_ne_nil b' bs')
        rw [ht'] at hwalk ⊢
        rw [if_neg (by simp [hbspace])]
        exact ih (HuffmanNode.node d2 f2 l2 r2) c f hwalk
          (List.cons_ne_nil b' bs')
          (fun x hx => hbits x (List.mem_cons.2 (Or.inr hx))) rest

/-- Scanning a non-empty bit path that stops at an internal node emits
nothing, steps on no `NULL` child, and ends with the empty output. -/
lemma decodeLoop_no_emit (root : HuffmanNode) :
    ∀ (p : List Char) (n m : HuffmanNode),
      walk n p = some m → (∀ b ∈ p, b = '0' ∨ b = '1') →
      (∃ d f l r, m = HuffmanNode.node d f l r) →
      decodeLoop root n p = some [] := by
  intro p
  induction p with
  | nil => intro n m _ _ _; simp
  | cons b bs ih =>
    intro n m hwalk hbits hm
    have hb : b = '0' ∨ b = '1' := hbits b (List.mem_cons.2 (Or.inl rfl))
    have hbspace : ¬ (b = ' ') := by rcases hb with h | h <;> rw [h] <;> decide
    cases n with
    | leaf d0 f0 => simp [walk] at hwalk
    | node d0 f0 l0 r0 =>
      rw [walk] at hwalk
      have hstep : (if b = '0' then (HuffmanNode.node d0 f0 l0 r0).left
          else if b = '1' then (HuffmanNode.node d0 f0 l0 r0).right
          else some (HuffmanNode.node d0 f0 l0 r0)) =
          some (if b = '0' then l0 else r0) := by
        rcases hb with h | h <;> rw [h] <;> simp
      rw [decodeLoop_cons_step root _ _ b _ hstep]
      have ht' : ∃ d f l r,
          (if b = '0' then l0 else r0) = HuffmanNode.node d f l r := by
        cases bs with
        | nil =>
          rw [walk] at hwalk
          rw [Option.some.inj hwalk]
          exact hm
        | cons b' bs' => exact walk_source_internal hwalk (List.cons_ne_nil b' bs')
      obtain ⟨d2, f2, l2, r2, ht'⟩ := ht'
      rw [ht'] at hwalk ⊢
      rw [if_neg (by simp [hbspace])]
      exact ih (HuffmanNode.node d2 f2 l2 r2) m hwalk
        (fun x hx => hbits x (List.mem_cons.2 (Or.inr hx))) hm

/-- Decoding the encoding of a text whose symbols all have proper codes,
followed by an arbitrary suffix, decodes the text and continues with the
suffix. -/
lemma decode_encode_append (root : HuffmanNode) (codes : CodeTable) :
    ∀ (text : List Char) (suffix : List Char),
      (∀ c ∈ text, ∃ p f, codes c = p ∧ p ≠ [] ∧
        (∀ b ∈ p, b = '0' ∨ b = '1') ∧
        walk root p = some (HuffmanNode.leaf c f)) →
      decodeLoop root root (encodeData text codes ++ suffix) =
        (decodeLoop root root suffix).map (fun ds => text ++ ds) := by
  intro text
  induction text with
  | nil =>
    intro suffix _
    rw [encodeData, List.nil_append]
    cases decodeLoop root root suffix <;> simp
  | cons c cs ih =>
    intro suffix h
    obtain ⟨p, f, hp, hne, hbits, hwalk⟩ := h c (List.mem_cons.2 (Or.inl rfl))
    rw [encodeData, hp]
    have harr : (p ++ [' '] ++ encodeData cs codes) ++ suffix =
        p ++ ' ' :: (encodeData cs codes ++ suffix) := by
      simp
    rw [harr, decodeLoop_code root p root c f hwalk hne hbits]
    rw [ih suffix (fun x hx => h x (List.mem_cons.2 (Or.inr hx)))]
    cases decodeLoop root root suffix <;> simp

/-- The per-symbol property needed by the round-trip, established for every
alphabetic table symbol over a built tree with at least two entries. -/
lemma symbol_code_spec (data : List Char) (freq : List Nat) (root : HuffmanNode)
    (hlen : freq.length = data.length) (h2 : 2 ≤ data.length)
    (hroot : buildHuffmanTree data freq = some root) :
    ∀ c, isalpha c = true → c ∈ data →
      ∃ p f, generateHuffmanCodes root emptyCodes c = p ∧ p ≠ [] ∧
        (∀ b ∈ p, b = '0' ∨ b = '1') ∧
        walk root p = some (HuffmanNode.leaf c f) := by
  intro c halpha hcdata
  obtain ⟨root', hroot', hchars, hint⟩ := build_root_spec data freq hlen (by omega)
  rw [hroot] at hroot'
  have hre : root = root' := Option.some.inj hroot'
  subst hre
  obtain ⟨d, f0, l, r, hshape⟩ := hint h2
  obtain ⟨p, hp⟩ := mem_leafCodes_of_alpha_mem halpha root [] (hchars c hcdata)
  obtain ⟨p', hp', hcp'⟩ := codes_entry_found hp
  obtain ⟨q, g, hq, hwalk, hbits⟩ := walk_of_leafCodes root [] (c, p') hp'
  simp only [List.nil_append] at hq
  have hne' : p' ≠ [] := by
    have := leafCodes_ne_nil_of_internal d f0 l r (c, p') (by rw [← hshape]; exact hp')
    simpa using this
  refine ⟨p', g, hcp', hne', ?_, ?_⟩
  · rw [hq]
    exact hbits
  · rw [hq]
    simpa using hwalk

/-! ## Claim C1 — round-trip -/

/-- C1 counterexample: the table `{'1': 1, '2': 2}` has two symbols of
positive frequency, and the text `"12"` is composed solely of table symbols;
yet decoding the encoded stream returns `"$"` (the internal-node sentinel),
not `"12"`.  The `isalpha` guard of `storeCodes` gives the digits no codes,
`encodeData` emits a bare delimiter per character, and each delimiter seen at
the root makes `decodeData` emit `root->data = '$'` (and skip the next
delimiter). -/
theorem claim1_counterexample :
    buildHuffmanTree ['1', '2'] [1, 2] =
        some (HuffmanNode.node '$' 3 (HuffmanNode.leaf '1' 1) (HuffmanNode.leaf '2' 2)) ∧
    decodeData (HuffmanNode.node '$' 3 (HuffmanNode.leaf '1' 1) (HuffmanNode.leaf '2' 2))
        (encodeData ['1', '2']
          (generateHuffmanCodes
            (HuffmanNode.node '$' 3 (HuffmanNode.leaf '1' 1) (HuffmanNode.leaf '2' 2))
            emptyCodes)) = some ['$'] := by
  constructor
  · rw [buildHuffmanTree]
    simp [createSortedArrayPriorityQueue, insertSortedArrayPriorityQueue,
      insertArray, insertScan, createHuffmanNode, buildLoop, extractMin]
  · have henc : encodeData ['1', '2']
        (generateHuffmanCodes
          (HuffmanNode.node '$' 3 (HuffmanNode.leaf '1' 1) (HuffmanNode.leaf '2' 2))
          emptyCodes) = [' ', ' '] := by decide
    rw [henc, decodeData]
    simp [decodeLoop_cons, skipSpace]

/-- C1 (corrected): for every table of parallel arrays with at least two
symbols of positive frequency, and every text composed solely of ALPHABETIC
symbols present in the table, decoding the encoded stream reconstructs the
text exactly. -/
theorem claim1_roundtrip (data : List Char) (freq : List Nat)
    (root : HuffmanNode) (text : List Char)
    (hlen : freq.length = data.length)
    (hpos : 2 ≤ (freq.filter (fun f => decide (0 < f))).length)
    (hroot : buildHuffmanTree data freq = some root)
    (htext : ∀ c ∈ text, isalpha c = true ∧ c ∈ data) :
    decodeData root (encodeData text (generateHuffmanCodes root emptyCodes)) =
      some text := by
  have h2 : 2 ≤ data.length :=
    le_trans hpos (by rw [← hlen]; exact List.length_filter_le _ _)
  have hspec := symbol_code_spec data freq root hlen h2 hroot
  rw [decodeData]
  have hmain := decode_encode_append root (generateHuffmanCodes root emptyCodes)
    text []
    (fun c hc => hspec c (htext c hc).1 (htext c hc).2)
  rw [List.append_nil] at hmain
  rw [hmain]
  simp

/-- Closed instance of C1 (corrected): the table `{a: 1, b: 2}` and the
text "ab" round-trip. -/
theorem claim1_roundtrip_witness :
    decodeData
        (HuffmanNode.node '$' 3 (HuffmanNode.leaf 'a' 1) (HuffmanNode.leaf 'b' 2))
        (encodeData ['a', 'b']
          (generateHuffmanCodes
            (HuffmanNode.node '$' 3 (HuffmanNode.leaf 'a' 1) (HuffmanNode.leaf 'b' 2))
            emptyCodes)) = some ['a', 'b'] :=
  claim1_roundtrip ['a', 'b'] [1, 2]
    (HuffmanNode.node '$' 3 (HuffmanNode.leaf 'a' 1) (HuffmanNode.leaf 'b' 2))
    ['a', 'b'] (by decide) (by decide)
    (by rw [buildHuffmanTree]
        simp [createSortedArrayPriorityQueue, insertSortedArrayPriorityQueue,
          insertArray, insertScan, createHuffmanNode, buildLoop, extractMin])
    (by decide)

/-! ## Claim C6 — truncated or corrupt streams -/

/-- C6 counterexample: over the tree of `{a: 1, b: 2, c: 4}` the stream
`"0"` is a strict prefix of `'a'`'s code `"00"` — it ends before reaching any
leaf.  The claim says decode signals a `TruncatedOrCorruptStream` condition
and aborts; in fact `decodeData` succeeds and returns the empty text. -/
theorem claim6_counterexample :
    buildHuffmanTree ['a', 'b', 'c'] [1, 2, 4] =
        some (HuffmanNode.node '$' 7
          (HuffmanNode.node '$' 3 (HuffmanNode.leaf 'a' 1) (HuffmanNode.leaf 'b' 2))
          (HuffmanNode.leaf 'c' 4)) ∧
    generateHuffmanCodes
        (HuffmanNode.node '$' 7
          (HuffmanNode.node '$' 3 (HuffmanNode.leaf 'a' 1) (HuffmanNode.leaf 'b' 2))
          (HuffmanNode.leaf 'c' 4)) emptyCodes 'a' = ['0', '0'] ∧
    decodeData
        (HuffmanNode.node '$' 7
          (HuffmanNode.node '$' 3 (HuffmanNode.leaf 'a' 1) (HuffmanNode.leaf 'b' 2))
          (HuffmanNode.leaf 'c' 4)) ['0'] = some [] := by
  refine ⟨?_, by decide, ?_⟩
  · rw [buildHuffmanTree]
    simp [createSortedArrayPriorityQueue, insertSortedArrayPriorityQueue,
      insertArray, insertScan, createHuffmanNode, buildLoop, extractMin]
  · rw [decodeData]
    simp [decodeLoop_cons, skipSpace]

/-- C6 (corrected): on a tree built from a table with at least two symbols,
decoding a stream that ends in the middle of a code signals nothing: it
silently returns exactly the symbols whose codes completed before the
truncation point, dropping the trailing partial code — and never
dereferences an absent child (the result is `some`, never the crash
`none`). -/
theorem claim6_truncated_silent (data : List Char) (freq : List Nat)
    (root : HuffmanNode) (text : List Char) (c : Char) (k : Nat)
    (hlen : freq.length = data.length) (h2 : 2 ≤ data.length)
    (hroot : buildHuffmanTree data freq = some root)
    (htext : ∀ c' ∈ text, isalpha c' = true ∧ c' ∈ data)
    (hc : isalpha c = true ∧ c ∈ data)
    (hk : k < (generateHuffmanCodes root emptyCodes c).length) :
    decodeData root (encodeData text (generateHuffmanCodes root emptyCodes)
      ++ (generateHuffmanCodes root emptyCodes c).take k) = some text := by
  have hspec := symbol_code_spec data freq root hlen h2 hroot
  obtain ⟨p, f, hp, hne, hbits, hwalk⟩ := hspec c hc.1 hc.2
  rw [decodeData, hp]
  rw [hp] at hk
  have hsplit : p.take k ++ p.drop k = p := List.take_append_drop k p
  have hw := walk_append root (p.take k) (p.drop k)
  rw [hsplit, hwalk] at hw
  cases hwt : walk root (p.take k) with
  | none =>
    rw [hwt] at hw
    exact absurd hw.symm (by simp)
  | some m =>
    rw [hwt] at hw
    have hdropne : p.drop k ≠ [] := by
      apply List.ne_nil_of_length_pos
      rw [List.length_drop]
      omega
    have hm : ∃ d' f' l' r', m = HuffmanNode.node d' f' l' r' :=
      walk_source_internal hw.symm hdropne
    have hdec := decode_encode_append root (generateHuffmanCodes root emptyCodes)
      text (p.take k)
      (fun c' hc' => hspec c' (htext c' hc').1 (htext c' hc').2)
    rw [hdec]
    rw [decodeLoop_no_emit root (p.take k) root m hwt
      (fun b hb => hbits b (List.take_subset k p hb)) hm]
    simp

/-- Closed instance of C6 (corrected): over `{a: 1, b: 2, c: 4}`, the stream
`encode("c") ++ "0"` (the code of `'c'` then the first bit of `'a'`'s code)
decodes to exactly "c". -/
theorem claim6_truncated_silent_witness :
    decodeData
        (HuffmanNode.node '$' 7
          (HuffmanNode.node '$' 3 (HuffmanNode.leaf 'a' 1) (HuffmanNode.leaf 'b' 2))
          (HuffmanNode.leaf 'c' 4))
        (encodeData ['c']
            (generateHuffmanCodes
              (HuffmanNode.node '$' 7
                (HuffmanNode.node '$' 3 (HuffmanNode.leaf 'a' 1) (HuffmanNode.leaf 'b' 2))
                (HuffmanNode.leaf 'c' 4)) emptyCodes)
          ++ (generateHuffmanCodes
              (HuffmanNode.node '$' 7
                (HuffmanNode.node '$' 3 (HuffmanNode.leaf 'a' 1) (HuffmanNode.leaf 'b' 2))
                (HuffmanNode.leaf 'c' 4)) emptyCodes 'a').take 1) = some ['c'] :=
  claim6_truncated_silent ['a', 'b', 'c'] [1, 2, 4]
    (HuffmanNode.node '$' 7
      (HuffmanNode.node '$' 3 (HuffmanNode.leaf 'a' 1) (HuffmanNode.leaf 'b' 2))
      (HuffmanNode.leaf 'c' 4))
    ['c'] 'a' 1 (by decide) (by decide)
    (by rw [buildHuffmanTree]
        simp [createSortedArrayPriorityQueue, insertSortedArrayPriorityQueue,
          insertArray, insertScan, createHuffmanNode, buildLoop, extractMin])
    (by decide) (by decide) (by decide)

/-! ## Claim C9 — code-length monotonicity: invariant machinery

The proof tracks, through the merge loop, that (i) every queue tree is
weight-consistent, (ii) every PROPER subtree of a queue tree weighs at most
the current queue minimum (children of merged nodes were past minima, and
extraction weights only grow), (iii) across the queue, an earlier tree's
leaf that is lighter than a later tree's leaf is at least as deep, and a
LATER tree's leaf that is lighter than an earlier tree's leaf is STRICTLY
deeper, and (iv) within every queue tree, lighter leaves are at least as
deep.  (iv) for the final root gives the claim. -/

/-- `(symbol, weight, depth)` of every leaf of a tree. -/
def leafDepths : HuffmanNode → List (Char × Nat × Nat)
  | .leaf d f => [(d, f, 0)]
  | .node _ _ l r =>
      (leafDepths l).map (fun e => (e.1, e.2.1, e.2.2 + 1)) ++
      (leafDepths r).map (fun e => (e.1, e.2.1, e.2.2 + 1))

/-- Internal weights are the sums of the children's weights (true of every
tree the program builds). -/
def consistent : HuffmanNode → Prop
  | .leaf _ _ => True
  | .node _ f l r => f = l.freq + r.freq ∧ consistent l ∧ consistent r

/-- Every proper subtree weighs at most `b`. -/
def childBounded : HuffmanNode → Nat → Prop
  | .leaf _ _, _ => True
  | .node _ _ l r, b => l.freq ≤ b ∧ r.freq ≤ b ∧ childBounded l b ∧ childBounded r b

lemma childBounded_mono {T : HuffmanNode} {b b' : Nat} (h : childBounded T b)
    (hb : b ≤ b') : childBounded T b' := by
  induction T with
  | leaf d f => trivial
  | node d f l r ihl ihr =>
    obtain ⟨h1, h2, h3, h4⟩ := h
    exact ⟨le_trans h1 hb, le_trans h2 hb, ihl h3, ihr h4⟩

/-- Cross-queue depth relation, for a tree `S` sitting BEFORE a tree `T`:
a leaf of `S` lighter than a leaf of `T` is at least as deep, and a leaf of
`T` lighter than a leaf of `S` is strictly deeper. -/
def DepthRel (S T : HuffmanNode) : Prop :=
  ∀ u ∈ leafDepths S, ∀ v ∈ leafDepths T,
    (u.2.1 < v.2.1 → v.2.2 ≤ u.2.2) ∧ (v.2.1 < u.2.1 → u.2.2 + 1 ≤ v.2.2)

/-- Within one tree, a strictly lighter leaf is at least as deep. -/
def MonoTree (T : HuffmanNode) : Prop :=
  ∀ u ∈ leafDepths T, ∀ v ∈ leafDepths T, u.2.1 < v.2.1 → v.2.2 ≤ u.2.2

/-- The weight of the front (minimum, when sorted) element. -/
def headFreq : List HuffmanNode → Nat
  | [] => 0
  | x :: _ => x.freq

/-- The loop invariant for code-length monotonicity. -/
def QueueInv (q : List HuffmanNode) : Prop :=
  QueueSorted q ∧ (∀ T ∈ q, consistent T) ∧
  (∀ T ∈ q, childBounded T (headFreq q)) ∧
  q.Pairwise DepthRel ∧ (∀ T ∈ q, MonoTree T)

lemma leafDepths_freq_le {T : HuffmanNode} (hc : consistent T) :
    ∀ e ∈ leafDepths T, e.2.1 ≤ T.freq := by
  induction T with
  | leaf d f => intro e he; simp [leafDepths] at he; simp [he]
  | node d f l r ihl ihr =>
    obtain ⟨hf, hcl, hcr⟩ := hc
    intro e he
    rw [leafDepths] at he
    rcases List.mem_append.1 he with h | h
    · obtain ⟨e', he', rfl⟩ := List.mem_map.1 h
      have := ihl hcl e' he'
      simp only [HuffmanNode.freq_node, hf]
      omega
    · obtain ⟨e', he', rfl⟩ := List.mem_map.1 h
      have := ihr hcr e' he'
      simp only [HuffmanNode.freq_node, hf]
      omega

/-- Recorded codes and leaf depths line up: a recorded pair `(c, code ++ q)`
comes from a leaf of symbol `c` at depth `q.length` (for some weight). -/
lemma leafCodes_leafDepths (t : HuffmanNode) (code : List Char) :
    ∀ e ∈ leafCodes t code, ∃ q f, e.2 = code ++ q ∧
      (e.1, f, q.length) ∈ leafDepths t := by
  induction t generalizing code with
  | leaf d f =>
    intro e he
    by_cases h : isalpha d <;> simp [leafCodes, h] at he
    exact ⟨[], f, by rw [he]; simp, by rw [he]; simp [leafDepths]⟩
  | node d f l r ihl ihr =>
    intro e he
    rcases List.mem_append.1 (by simpa [leafCodes] using he) with h | h
    · obtain ⟨q, g, hq, hd⟩ := ihl _ e h
      refine ⟨'0' :: q, g, by simp [hq], ?_⟩
      rw [leafDepths]
      refine List.mem_append.2 (Or.inl ?_)
      exact List.mem_map.2 ⟨(e.1, g, q.length), hd, rfl⟩
    · obtain ⟨q, g, hq, hd⟩ := ihr _ e h
      refine ⟨'1' :: q, g, by simp [hq], ?_⟩
      rw [leafDepths]
      refine List.mem_append.2 (Or.inr ?_)
      exact List.mem_map.2 ⟨(e.1, g, q.length), hd, rfl⟩

lemma leafDepths_node_mem {d : Char} {f : Nat} {l r : HuffmanNode}
    {e : Char × Nat × Nat} :
    e ∈ leafDepths (HuffmanNode.node d f l r) ↔
      (∃ e' ∈ leafDepths l, e = (e'.1, e'.2.1, e'.2.2 + 1)) ∨
      (∃ e' ∈ leafDepths r, e = (e'.1, e'.2.1, e'.2.2 + 1)) := by
  rw [leafDepths]
  constructor
  · intro h
    rcases List.mem_append.1 h with h | h
    · obtain ⟨e', he', heq⟩ := List.mem_map.1 h
      exact Or.inl ⟨e', he', heq.symm⟩
    · obtain ⟨e', he', heq⟩ := List.mem_map.1 h
      exact Or.inr ⟨e', he', heq.symm⟩
  · rintro (⟨e', he', rfl⟩ | ⟨e', he', rfl⟩)
    · exact List.mem_append.2 (Or.inl (List.mem_map.2 ⟨e', he', rfl⟩))
    · exact List.mem_append.2 (Or.inr (List.mem_map.2 ⟨e', he', rfl⟩))

/-- A tree standing before both `a` and `b` keeps its depth relation to the
merged node: the merged leaves got one deeper, which only helps. -/
lemma depthRel_before_merge {a b S : HuffmanNode}
    (h1 : DepthRel a S) (h2 : DepthRel b S) :
    DepthRel S (HuffmanNode.node '$' (a.freq + b.freq) a b) := by
  intro u hu v hv
  rcases leafDepths_node_mem.1 hv with ⟨v', hv', rfl⟩ | ⟨v', hv', rfl⟩
  · have hc := h1 v' hv' u hu
    exact ⟨fun hlt => hc.2 hlt, fun hlt => Nat.succ_le_succ (hc.1 hlt)⟩
  · have hc := h2 v' hv' u hu
    exact ⟨fun hlt => hc.2 hlt, fun hlt => Nat.succ_le_succ (hc.1 hlt)⟩

/-- The merged node keeps its depth relation to a STRICTLY heavier tree
behind it: the "strictly deeper" clause is vacuous, because a tree heavier
than the merge weight cannot contain a leaf lighter than a merged leaf —
its children are bounded by the old queue minimum `a.freq`, so its total
weight is at most `a.freq + b.freq`, a contradiction. -/
lemma depthRel_merge_before {a b T : HuffmanNode}
    (hab : a.freq ≤ b.freq)
    (hconsa : consistent a) (hconsb : consistent b) (hconsT : consistent T)
    (hbT : childBounded T a.freq)
    (hMT : a.freq + b.freq < T.freq)
    (h1 : DepthRel a T) (h2 : DepthRel b T) :
    DepthRel (HuffmanNode.node '$' (a.freq + b.freq) a b) T := by
  intro u hu v hv
  rcases leafDepths_node_mem.1 hu with ⟨u', hu', rfl⟩ | ⟨u', hu', rfl⟩
  · refine ⟨?_, ?_⟩
    · intro hlt
      have := (h1 u' hu' v hv).1 hlt
      simp only []
      omega
    · intro hlt
      exfalso
      have hua : u'.2.1 ≤ a.freq := leafDepths_freq_le hconsa u' hu'
      cases T with
      | leaf dT fT =>
        have hv' : v = (dT, fT, 0) := by simpa [leafDepths] using hv
        rw [hv'] at hlt
        simp only [HuffmanNode.freq_leaf] at hMT
        simp only [] at hlt
        omega
      | node dT fT lT rT =>
        obtain ⟨hfT, -, -⟩ := hconsT
        obtain ⟨hl1, hl2, -, -⟩ := hbT
        simp only [HuffmanNode.freq_node] at hMT
        omega
  · refine ⟨?_, ?_⟩
    · intro hlt
      have := (h2 u' hu' v hv).1 hlt
      simp only []
      omega
    · intro hlt
      exfalso
      have hub : u'.2.1 ≤ b.freq := leafDepths_freq_le hconsb u' hu'
      cases T with
      | leaf dT fT =>
        have hv' : v = (dT, fT, 0) := by simpa [leafDepths] using hv
        rw [hv'] at hlt
        simp only [HuffmanNode.freq_leaf] at hMT
        simp only [] at hlt
        omega
      | node dT fT lT rT =>
        obtain ⟨hfT, -, -⟩ := hconsT
        obtain ⟨hl1, hl2, -, -⟩ := hbT
        simp only [HuffmanNode.freq_node] at hMT
        omega

/-- Merging two monotone trees with the proper cross relation stays
monotone. -/
lemma monoTree_merge {a b : HuffmanNode}
    (hma : MonoTree a) (hmb : MonoTree b) (hRab : DepthRel a b) :
    MonoTree (HuffmanNode.node '$' (a.freq + b.freq) a b) := by
  intro u hu v hv hlt
  rcases leafDepths_node_mem.1 hu with ⟨u', hu', rfl⟩ | ⟨u', hu', rfl⟩ <;>
    rcases leafDepths_node_mem.1 hv with ⟨v', hv', rfl⟩ | ⟨v', hv', rfl⟩
  · exact Nat.succ_le_succ (hma u' hu' v' hv' hlt)
  · exact Nat.succ_le_succ ((hRab u' hu' v' hv').1 hlt)
  · have := (hRab v' hv' u' hu').2 hlt
    simp only []
    omega
  · exact Nat.succ_le_succ (hmb u' hu' v' hv' hlt)

/-- One merge step of the loop preserves the whole invariant. -/
lemma step_inv (a b : HuffmanNode) (rest : List HuffmanNode)
    (hinv : QueueInv (a :: b :: rest)) :
    QueueInv (insertArray (HuffmanNode.node '$' (a.freq + b.freq) a b) rest) := by
  obtain ⟨hs, hcons, hbound, hpair, hmono⟩ := hinv
  have hab : a.freq ≤ b.freq :=
    (List.pairwise_cons.1 hs).1 b (List.mem_cons.2 (Or.inl rfl))
  have hrest_sorted : QueueSorted rest :=
    (List.pairwise_cons.1 (List.pairwise_cons.1 hs).2).2
  have hbr : ∀ x ∈ rest, b.freq ≤ x.freq :=
    (List.pairwise_cons.1 (List.pairwise_cons.1 hs).2).1
  have hpa := List.pairwise_cons.1 hpair
  have hpb := List.pairwise_cons.1 hpa.2
  have hRab : DepthRel a b := hpa.1 b (List.mem_cons.2 (Or.inl rfl))
  have hRaT : ∀ T ∈ rest, DepthRel a T :=
    fun T hT => hpa.1 T (List.mem_cons.2 (Or.inr hT))
  have hRbT : ∀ T ∈ rest, DepthRel b T := hpb.1
  have hprest : rest.Pairwise DepthRel := hpb.2
  have hbound' : ∀ T ∈ a :: b :: rest, childBounded T a.freq := by
    intro T hT
    simpa [headFreq] using hbound T hT
  have hconsa : consistent a := hcons a (by simp)
  have hconsb : consistent b := hcons b (by simp)
  obtain ⟨l₁, l₂, hsplit, hins, h₁, h₂, hsorted'⟩ :=
    insertArray_sorted_split (HuffmanNode.node '$' (a.freq + b.freq) a b)
      rest hrest_sorted
  have hconsM : consistent (HuffmanNode.node '$' (a.freq + b.freq) a b) :=
    ⟨by simp, hconsa, hconsb⟩
  have hmemins : ∀ T, T ∈ insertArray (HuffmanNode.node '$' (a.freq + b.freq) a b) rest →
      T = HuffmanNode.node '$' (a.freq + b.freq) a b ∨ T ∈ rest :=
    fun T hT => mem_insertArray.1 hT
  -- every element of the new queue weighs at least `b.freq`
  have hlow : ∀ T ∈ insertArray (HuffmanNode.node '$' (a.freq + b.freq) a b) rest,
      b.freq ≤ T.freq := by
    intro T hT
    rcases hmemins T hT with h | h
    · rw [h]; simp
    · exact hbr T h
  refine ⟨hsorted', ?_, ?_, ?_, ?_⟩
  · -- consistency
    intro T hT
    rcases hmemins T hT with h | h
    · rw [h]; exact hconsM
    · exact hcons T (by simp [h])
  · -- child bound by the new head
    intro T hT
    have hhd : b.freq ≤ headFreq (insertArray (HuffmanNode.node '$' (a.freq + b.freq) a b) rest) := by
      cases hq : insertArray (HuffmanNode.node '$' (a.freq + b.freq) a b) rest with
      | nil =>
        exfalso
        have := length_insertArray (HuffmanNode.node '$' (a.freq + b.freq) a b) rest
        rw [hq] at this
        simp at this
      | cons y ys =>
        have : b.freq ≤ y.freq := hlow y (by rw [hq]; simp)
        simpa [headFreq] using this
    rcases hmemins T hT with h | h
    · rw [h]
      refine ⟨le_trans hab hhd, hhd, ?_, ?_⟩
      · exact childBounded_mono (hbound' a (by simp)) (le_trans hab hhd)
      · exact childBounded_mono (hbound' b (by simp)) (le_trans hab hhd)
    · exact childBounded_mono (hbound' T (by simp [h])) (le_trans hab hhd)
  · -- pairwise depth relation
    rw [hins]
    have hsp := hsplit ▸ hprest
    rcases List.pairwise_append.1 hsp with ⟨hp₁, hp₂, hp₁₂⟩
    refine List.pairwise_append.2 ⟨hp₁, ?_, ?_⟩
    · refine List.pairwise_cons.2 ⟨?_, hp₂⟩
      intro T hT
      have hTrest : T ∈ rest := by rw [hsplit]; exact List.mem_append.2 (Or.inr hT)
      exact depthRel_merge_before hab hconsa hconsb (hcons T (by simp [hTrest]))
        (hbound' T (by simp [hTrest]))
        (by simpa using h₂ T hT)
        (hRaT T hTrest) (hRbT T hTrest)
    · intro S hS T' hT'
      have hSrest : S ∈ rest := by rw [hsplit]; exact List.mem_append.2 (Or.inl hS)
      rcases List.mem_cons.1 hT' with h | h
      · rw [h]
        exact depthRel_before_merge (hRaT S hSrest) (hRbT S hSrest)
      · exact hp₁₂ S hS T' h
  · -- per-tree monotonicity
    intro T hT
    rcases hmemins T hT with h | h
    · rw [h]
      exact monoTree_merge (hmono a (by simp)) (hmono b (by simp)) hRab
    · exact hmono T (by simp [h])

/-- The merge loop preserves the invariant all the way down (inside the
loop the queue always fits under the capacity, so no insertion is ever
dropped). -/
lemma buildLoop_queueInv :
    ∀ (n cap : Nat) (q : List HuffmanNode), q.length ≤ n → q.length ≤ cap →
      QueueInv q → QueueInv (buildLoop cap q) := by
  intro n
  induction n with
  | zero =>
    intro cap q hn _ hinv
    have hq : q = [] := List.length_eq_zero.1 (Nat.le_zero.1 hn)
    subst hq
    simpa [buildLoop_nil] using hinv
  | succ m ih =>
    intro cap q hn hcap hinv
    match q with
    | [] => simpa [buildLoop_nil] using hinv
    | [x] => simpa [buildLoop_single] using hinv
    | a :: b :: rest =>
      have hne : rest.length ≠ cap := by
        simp only [List.length_cons] at hcap
        omega
      rw [buildLoop_cons_cons cap a b rest hne]
      apply ih
      · simp only [List.length_cons] at hn
        rw [length_insertArray]
        omega
      · rw [length_insertArray]
        simp only [List.length_cons] at hcap
        omega
      · exact step_inv a b rest hinv

/-- A sorted queue of single leaves satisfies the invariant. -/
lemma queueInv_of_leaves (q : List HuffmanNode) (hs : QueueSorted q)
    (hl : ∀ T ∈ q, ∃ c f, T = HuffmanNode.leaf c f) : QueueInv q := by
  refine ⟨hs, ?_, ?_, ?_, ?_⟩
  · intro T hT
    obtain ⟨c, f, rfl⟩ := hl T hT
    trivial
  · intro T hT
    obtain ⟨c, f, rfl⟩ := hl T hT
    trivial
  · refine List.Pairwise.imp_of_mem ?_ hs
    intro S T hSm hTm hfreq
    obtain ⟨c, f, rfl⟩ := hl S hSm
    obtain ⟨c', f', rfl⟩ := hl T hTm
    intro u hu v hv
    have hu' : u = (c, f, 0) := by simpa [leafDepths] using hu
    have hv' : v = (c', f', 0) := by simpa [leafDepths] using hv
    rw [hu', hv']
    simp only [HuffmanNode.freq_leaf] at hfreq
    refine ⟨fun _ => le_rfl, fun hlt => ?_⟩
    exfalso
    have h1 : f' < f := by simpa using hlt
    omega
  · intro T hT
    obtain ⟨c, f, rfl⟩ := hl T hT
    intro u hu v hv hlt
    have hu' : u = (c, f, 0) := by simpa [leafDepths] using hu
    have hv' : v = (c, f, 0) := by simpa [leafDepths] using hv
    rw [hu', hv'] at hlt
    simp at hlt

/-- Seeding leaves into an initially given queue: the result stays sorted,
and every element is either an original element or one of the seeded
leaves. -/
lemma seed_sorted_leaves :
    ∀ (entries : List (Char × Nat)) (q : SortedArrayPriorityQueue),
      QueueSorted q.array →
      QueueSorted (entries.foldl
        (fun q e => insertSortedArrayPriorityQueue q (createHuffmanNode e.1 e.2))
        q).array ∧
      (∀ T ∈ (entries.foldl
        (fun q e => insertSortedArrayPriorityQueue q (createHuffmanNode e.1 e.2))
        q).array, T ∈ q.array ∨ ∃ e ∈ entries, T = HuffmanNode.leaf e.1 e.2) := by
  intro entries
  induction entries with
  | nil =>
    intro q hs
    exact ⟨hs, fun T hT => Or.inl hT⟩
  | cons e es ih =>
    intro q hs
    simp only [List.foldl_cons]
    have hstep : QueueSorted (insertSortedArrayPriorityQueue q
        (createHuffmanNode e.1 e.2)).array ∧
        ∀ T ∈ (insertSortedArrayPriorityQueue q (createHuffmanNode e.1 e.2)).array,
          T ∈ q.array ∨ T = HuffmanNode.leaf e.1 e.2 := by
      rw [insertSortedArrayPriorityQueue]
      split
      · exact ⟨hs, fun T hT => Or.inl hT⟩
      · constructor
        · exact queueSorted_insertArray _ _ hs
        · intro T hT
          rcases mem_insertArray.1 hT with h | h
          · exact Or.inr (by rw [h]; rfl)
          · exact Or.inl h
    obtain ⟨ih1, ih2⟩ := ih (insertSortedArrayPriorityQueue q
      (createHuffmanNode e.1 e.2)) hstep.1
    refine ⟨ih1, ?_⟩
    intro T hT
    rcases ih2 T hT with h | ⟨e', he', heq⟩
    · rcases hstep.2 T h with h' | h'
      · exact Or.inl h'
      · exact Or.inr ⟨e, List.mem_cons.2 (Or.inl rfl), h'⟩
    · exact Or.inr ⟨e', List.mem_cons.2 (Or.inr he'), heq⟩

/-- Every `(symbol, weight)` pair of every leaf of every queue tree comes
from `pairs`. -/
def LeafEntriesFrom (pairs : List (Char × Nat)) (q : List HuffmanNode) : Prop :=
  ∀ T ∈ q, ∀ e ∈ leafDepths T, (e.1, e.2.1) ∈ pairs

/-- The merge loop only rearranges leaves, never invents pairs. -/
lemma buildLoop_entriesFrom :
    ∀ (n cap : Nat) (q : List HuffmanNode) (pairs : List (Char × Nat)),
      q.length ≤ n → LeafEntriesFrom pairs q →
      LeafEntriesFrom pairs (buildLoop cap q) := by
  intro n
  induction n with
  | zero =>
    intro cap q pairs hn hq
    have hq0 : q = [] := List.length_eq_zero.1 (Nat.le_zero.1 hn)
    subst hq0
    simpa [buildLoop_nil] using hq
  | succ m ih =>
    intro cap q pairs hn hq
    match q with
    | [] => simpa [buildLoop_nil] using hq
    | [x] => simpa [buildLoop_single] using hq
    | a :: b :: rest =>
      rw [buildLoop]
      have hrest : LeafEntriesFrom pairs rest :=
        fun T hT => hq T (by simp [hT])
      have hstep : LeafEntriesFrom pairs
          (insertArray (HuffmanNode.node '$' (a.freq + b.freq) a b) rest) := by
        intro T hT
        rcases mem_insertArray.1 hT with h | h
        · rw [h]
          intro e he
          rcases leafDepths_node_mem.1 he with ⟨e', he', rfl⟩ | ⟨e', he', rfl⟩
          · exact hq a (by simp) e' he'
          · exact hq b (by simp) e' he'
        · exact hrest T h
      split
      · exact ih cap rest pairs (by simp only [List.length_cons] at hn; omega) hrest
      · exact ih cap _ pairs
          (by simp only [List.length_cons] at hn; rw [length_insertArray]; omega) hstep

/-- In a table whose symbol array has no duplicates, a symbol determines its
frequency. -/
lemma zip_key_unique :
    ∀ (data : List Char) (freq : List Nat), data.Nodup →
      ∀ {c : Char} {f f' : Nat}, (c, f) ∈ data.zip freq →
        (c, f') ∈ data.zip freq → f = f' := by
  intro data
  induction data with
  | nil => intro freq _ c f f' h; simp at h
  | cons x xs ih =>
    intro freq hnodup c f f' h h'
    match freq with
    | [] => simp at h
    | g :: gs =>
      rw [List.nodup_cons] at hnodup
      rw [List.zip_cons_cons] at h h'
      rcases List.mem_cons.1 h with h0 | h0 <;> rcases List.mem_cons.1 h' with h1 | h1
      · rw [Prod.mk.injEq] at h0 h1
        rw [h0.2, h1.2]
      · exfalso
        rw [Prod.mk.injEq] at h0
        have hmem : c ∈ xs := (List.of_mem_zip h1).1
        exact hnodup.1 (h0.1 ▸ hmem)
      · exfalso
        rw [Prod.mk.injEq] at h1
        have hmem : c ∈ xs := (List.of_mem_zip h0).1
        exact hnodup.1 (h1.1 ▸ hmem)
      · exact ih gs hnodup.2 h0 h1

lemma buildLoop_single_result (cap : Nat) (q : List HuffmanNode)
    (h1 : 1 ≤ q.length) (hcap : q.length ≤ cap) :
    ∃ r, buildLoop cap q = [r] := by
  rcases Nat.lt_or_ge q.length 2 with hsmall | hbig
  · have hone : q.length = 1 := by omega
    obtain ⟨x, hx⟩ := List.length_eq_one.1 hone
    exact ⟨x, by rw [hx, buildLoop_single]⟩
  · obtain ⟨d, f, l, r, h⟩ := buildLoop_internal q.length cap q le_rfl hbig hcap
    exact ⟨_, h⟩

/-- The built root is depth-monotone and only carries table pairs on its
leaves. -/
lemma build_root_inv (data : List Char) (freq : List Nat)
    (hlen : freq.length = data.length) (h1 : 1 ≤ data.length) :
    ∃ root, buildHuffmanTree data freq = some root ∧ MonoTree root ∧
      (∀ e ∈ leafDepths root, (e.1, e.2.1) ∈ data.zip freq) := by
  have hzip : (data.zip freq).length = data.length := by
    rw [List.length_zip, hlen, Nat.min_self]
  obtain ⟨hc, hl, -⟩ := seed_spec (data.zip freq)
    (createSortedArrayPriorityQueue data.length)
    (by simp [createSortedArrayPriorityQueue, hzip])
  obtain ⟨hsort, hmem⟩ := seed_sorted_leaves (data.zip freq)
    (createSortedArrayPriorityQueue data.length)
    (by simp [createSortedArrayPriorityQueue, QueueSorted])
  simp only [buildHuffmanTree]
  set seeded := (data.zip freq).foldl
    (fun q e => insertSortedArrayPriorityQueue q (createHuffmanNode e.1 e.2))
    (createSortedArrayPriorityQueue data.length) with hseed
  simp only [createSortedArrayPriorityQueue] at hc hl hmem
  rw [hzip] at hl
  simp only [List.length_nil, Nat.zero_add] at hl
  have hleaves : ∀ T ∈ seeded.array, ∃ c f, T = HuffmanNode.leaf c f := by
    intro T hT
    rcases hmem T hT with h | ⟨e, -, heq⟩
    · simp at h
    · exact ⟨e.1, e.2, heq⟩
  have hinv0 : QueueInv seeded.array := queueInv_of_leaves _ hsort hleaves
  have hEF0 : LeafEntriesFrom (data.zip freq) seeded.array := by
    intro T hT e he
    rcases hmem T hT with h | ⟨e', he', heq⟩
    · simp at h
    · rw [heq] at he
      have : e = (e'.1, e'.2, 0) := by simpa [leafDepths] using he
      rw [this]
      simpa using he'
  have hinv : QueueInv (buildLoop seeded.capacity seeded.array) :=
    buildLoop_queueInv seeded.array.length seeded.capacity seeded.array
      le_rfl (by rw [hl, hc]) hinv0
  have hEF : LeafEntriesFrom (data.zip freq) (buildLoop seeded.capacity seeded.array) :=
    buildLoop_entriesFrom seeded.array.length seeded.capacity seeded.array
      (data.zip freq) le_rfl hEF0
  obtain ⟨root, hroot⟩ := buildLoop_single_result seeded.capacity seeded.array
    (by rw [hl]; omega) (by rw [hl, hc])
  refine ⟨root, ?_, ?_, ?_⟩
  · rw [hroot]
    simp [extractMin]
  · exact hinv.2.2.2.2 root (by rw [hroot]; simp)
  · exact hEF root (by rw [hroot]; simp)

/-! ## Claim C9 — code-length monotonicity -/

/-- C9 counterexample: in the table `{'1': 1, 'b': 2}` the symbol `'1'` has
strictly lower frequency than `'b'`, yet its code in the generated table
(the empty row — `storeCodes` skips non-alphabetic leaves) is strictly
SHORTER than `'b'`'s code `"1"`, violating the claim as stated. -/
theorem claim9_counterexample :
    buildHuffmanTree ['1', 'b'] [1, 2] =
        some (HuffmanNode.node '$' 3 (HuffmanNode.leaf '1' 1) (HuffmanNode.leaf 'b' 2)) ∧
    (generateHuffmanCodes
        (HuffmanNode.node '$' 3 (HuffmanNode.leaf '1' 1) (HuffmanNode.leaf 'b' 2))
        emptyCodes '1').length <
      (generateHuffmanCodes
        (HuffmanNode.node '$' 3 (HuffmanNode.leaf '1' 1) (HuffmanNode.leaf 'b' 2))
        emptyCodes 'b').length := by
  refine ⟨?_, by decide⟩
  rw [buildHuffmanTree]
  simp [createSortedArrayPriorityQueue, insertSortedArrayPriorityQueue,
    insertArray, insertScan, createHuffmanNode, buildLoop, extractMin]

/-- C9 (corrected): over the tree built from a duplicate-free table with at
least two symbols, for ALPHABETIC symbols `c, c'` with table frequencies
`fc < fc'`, the code of the lower-frequency symbol `c` is no shorter than
the code of `c'`. -/
theorem claim9_code_length_monotone (data : List Char) (freq : List Nat)
    (root : HuffmanNode) (c c' : Char) (fc fc' : Nat)
    (hlen : freq.length = data.length)
    (h2 : 2 ≤ data.length)
    (hnodup : data.Nodup)
    (hroot : buildHuffmanTree data freq = some root)
    (hca : isalpha c = true) (hca' : isalpha c' = true)
    (hfc : (c, fc) ∈ data.zip freq) (hfc' : (c', fc') ∈ data.zip freq)
    (hlt : fc < fc') :
    (generateHuffmanCodes root emptyCodes c').length ≤
      (generateHuffmanCodes root emptyCodes c).length := by
  have hcd : c ∈ data := (List.of_mem_zip hfc).1
  have hcd' : c' ∈ data := (List.of_mem_zip hfc').1
  obtain ⟨root₁, hroot₁, hchars, -⟩ := build_root_spec data freq hlen (by omega)
  rw [hroot] at hroot₁
  have h1e : root₁ = root := (Option.some.inj hroot₁).symm
  rw [h1e] at hchars
  obtain ⟨root₂, hroot₂, hmonoR, hEF⟩ := build_root_inv data freq hlen (by omega)
  rw [hroot] at hroot₂
  have h2e : root₂ = root := (Option.some.inj hroot₂).symm
  rw [h2e] at hmonoR hEF
  -- the row of `c` is a recorded path of a leaf at some depth with some weight
  obtain ⟨p, hpmem⟩ := mem_leafCodes_of_alpha_mem hca root [] (hchars c hcd)
  obtain ⟨pc, hpc, hcpc⟩ := codes_entry_found hpmem
  obtain ⟨qc, gc, hqc, hdc⟩ := leafCodes_leafDepths root [] (c, pc) hpc
  simp only [List.nil_append] at hqc
  obtain ⟨p', hpmem'⟩ := mem_leafCodes_of_alpha_mem hca' root [] (hchars c' hcd')
  obtain ⟨pc', hpc', hcpc'⟩ := codes_entry_found hpmem'
  obtain ⟨qc', gc', hqc', hdc'⟩ := leafCodes_leafDepths root [] (c', pc') hpc'
  simp only [List.nil_append] at hqc'
  -- the leaf weights are the table frequencies
  have hgc : (c, gc) ∈ data.zip freq := by simpa using hEF _ hdc
  have hgc' : (c', gc') ∈ data.zip freq := by simpa using hEF _ hdc'
  have hgc_eq : gc = fc := zip_key_unique data freq hnodup hgc hfc
  have hgc'_eq : gc' = fc' := zip_key_unique data freq hnodup hgc' hfc'
  -- monotonicity of depths in the root
  have hdep := hmonoR (c, gc, qc.length) hdc (c', gc', qc'.length) hdc'
    (by simp only []; omega)
  rw [hcpc, hcpc', hqc, hqc']
  simpa using hdep

/-- Closed instance of C9 (corrected): in `{a: 1, b: 2}`, the code of `b`
(frequency 2) is no longer than the code of `a` (frequency 1). -/
theorem claim9_code_length_monotone_witness :
    (generateHuffmanCodes
        (HuffmanNode.node '$' 3 (HuffmanNode.leaf 'a' 1) (HuffmanNode.leaf 'b' 2))
        emptyCodes 'b').length ≤
      (generateHuffmanCodes
        (HuffmanNode.node '$' 3 (HuffmanNode.leaf 'a' 1) (HuffmanNode.leaf 'b' 2))
        emptyCodes 'a').length :=
  claim9_code_length_monotone ['a', 'b'] [1, 2]
    (HuffmanNode.node '$' 3 (HuffmanNode.leaf 'a' 1) (HuffmanNode.leaf 'b' 2))
    'a' 'b' 1 2 (by decide) (by decide) (by decide)
    (by rw [buildHuffmanTree]
        simp [createSortedArrayPriorityQueue, insertSortedArrayPriorityQueue,
          insertArray, insertScan, createHuffmanNode, buildLoop, extractMin])
    (by decide) (by decide) (by decide) (by decide) (by decide)

end HuffmanC
